import Mathlib

/-!
Verification development for the web-tree-sitter incremental-parsing engine.

The repository ships only the type-interface declaration file
(`src/lib/binding_web/web-tree-sitter.d.ts`); the engine it describes lives
outside the repository.  Following the specification (spec.md), the engine
components implied by that interface are modelled here as executable Lean
definitions: the Position/Range/Edit value model, syntax trees with node
ids and change flags, `Tree.edit` coordinate adjustment, `Parser.parse`
with incremental subtree reuse, the tree cursor, and `getChangedRanges`.
Every definition whose doc comment starts with "Modelled from the spec"
stands in for engine code that is absent from the repository sources.
-/

namespace TS

/-- A position in a multi-line text document, in terms of rows and columns
(zero-based), mirroring the `Point` interface of the declaration file. -/
structure Point where
  row : Nat
  column : Nat
deriving DecidableEq, Repr

/-- Strict lexicographic order on points (row-major). -/
def Point.lt (p q : Point) : Bool :=
  p.row < q.row || (p.row = q.row && p.column < q.column)

/-- Lexicographic order on points (row-major). -/
def Point.le (p q : Point) : Bool :=
  p.row < q.row || (p.row = q.row && p.column ≤ q.column)

/-- Pointwise minimum for the lexicographic order. -/
def Point.min (p q : Point) : Point := if Point.le p q then p else q

/-- Pointwise maximum for the lexicographic order. -/
def Point.max (p q : Point) : Point := if Point.le p q then q else p

/-- A range of positions in a multi-line text document, both in terms of
bytes and of rows and columns, mirroring the `Range` interface. -/
structure Range where
  startPosition : Point
  endPosition : Point
  startIndex : Nat
  endIndex : Nat
deriving DecidableEq, Repr

/-- A summary of a change to a text document, mirroring the `Edit`
interface: a single textual replacement described both in byte offsets and
in row/column coordinates. -/
structure Edit where
  startPosition : Point
  oldEndPosition : Point
  newEndPosition : Point
  startIndex : Nat
  oldEndIndex : Nat
  newEndIndex : Nat
deriving DecidableEq, Repr

/-- The per-node scalar data of a syntax-tree node: type id, the
named/extra/error/missing flags, and the byte/point range, mirroring the
corresponding `Node` accessors of the declaration file. -/
structure NodeInfo where
  typeId : Nat
  isNamed : Bool
  isExtra : Bool
  isError : Bool
  isMissing : Bool
  startIndex : Nat
  endIndex : Nat
  startPosition : Point
  endPosition : Point
deriving DecidableEq, Repr

/-- The structure of a syntax tree without node identities: per-node scalar
data plus the ordered list of children.  This is what a parse of a given
text determines; node ids and change flags are added on top of it. -/
inductive RawTree where
  | mk (info : NodeInfo) (children : List RawTree)

/-- A syntax-tree node: a numeric id, the has-changes flag maintained by
`Tree.edit`, the scalar data, and the ordered children.  Mirrors the `Node`
class of the declaration file (a node is a view into its tree). -/
inductive SNode where
  | mk (id : Nat) (hasChanges : Bool) (info : NodeInfo) (children : List SNode)

/-- Scalar data of a shape-tree node. -/
def RawTree.info : RawTree → NodeInfo
  | .mk i _ => i

/-- Children of a shape-tree node. -/
def RawTree.children : RawTree → List RawTree
  | .mk _ ks => ks

/-- Byte index where a shape-tree node starts. -/
def RawTree.startIndex (t : RawTree) : Nat := t.info.startIndex

/-- Byte index where a shape-tree node ends. -/
def RawTree.endIndex (t : RawTree) : Nat := t.info.endIndex

/-- The numeric id of a node. -/
def SNode.id : SNode → Nat
  | .mk i _ _ _ => i

/-- The has-changes flag of a node, set by `Tree.edit` on nodes touching
the edited range. -/
def SNode.hasChanges : SNode → Bool
  | .mk _ c _ _ => c

/-- Scalar data of a node. -/
def SNode.info : SNode → NodeInfo
  | .mk _ _ i _ => i

/-- The ordered children of a node, mirroring the `Node.children`
accessor of the declaration file. -/
def SNode.children : SNode → List SNode
  | .mk _ _ _ ks => ks

/-- Byte index where a node starts, mirroring `Node.startIndex`. -/
def SNode.startIndex (t : SNode) : Nat := t.info.startIndex

/-- Byte index where a node ends, mirroring `Node.endIndex`. -/
def SNode.endIndex (t : SNode) : Nat := t.info.endIndex

/-- Node type id, mirroring `Node.typeId`. -/
def SNode.typeId (t : SNode) : Nat := t.info.typeId

mutual
/-- Boolean structural equality of shape trees. -/
def RawTree.beq : RawTree → RawTree → Bool
  | .mk i ks, .mk j ls => i == j && rawBeqL ks ls
/-- Boolean structural equality of lists of shape trees. -/
def rawBeqL : List RawTree → List RawTree → Bool
  | [], [] => true
  | t :: ts, u :: us => RawTree.beq t u && rawBeqL ts us
  | _, _ => false
end

mutual
/-- Structural boolean equality on `RawTree` decides propositional equality. -/
theorem rawBeq_iff : ∀ a b : RawTree, (RawTree.beq a b = true) ↔ a = b
  | .mk i ks, .mk j ls => by
    simp only [RawTree.beq, Bool.and_eq_true, beq_iff_eq]
    constructor
    · rintro ⟨rfl, h⟩
      rw [(rawBeqL_iff ks ls).mp h]
    · intro h
      injection h with h1 h2
      exact ⟨h1, (rawBeqL_iff ks ls).mpr h2⟩
/-- Structural boolean equality on lists of `RawTree` decides equality. -/
theorem rawBeqL_iff : ∀ a b : List RawTree, (rawBeqL a b = true) ↔ a = b
  | [], [] => by simp [rawBeqL]
  | [], _ :: _ => by simp [rawBeqL]
  | _ :: _, [] => by simp [rawBeqL]
  | a :: as, b :: bs => by
    simp only [rawBeqL, Bool.and_eq_true, List.cons.injEq]
    exact and_congr (rawBeq_iff a b) (rawBeqL_iff as bs)
end

instance : DecidableEq RawTree := fun a b =>
  decidable_of_iff (RawTree.beq a b = true) (rawBeq_iff a b)

mutual
/-- Boolean structural equality of nodes. -/
def SNode.beq : SNode → SNode → Bool
  | .mk i c nfo ks, .mk j d mfo ls => i == j && c == d && nfo == mfo && nodeBeqL ks ls
/-- Boolean structural equality of lists of nodes. -/
def nodeBeqL : List SNode → List SNode → Bool
  | [], [] => true
  | t :: ts, u :: us => SNode.beq t u && nodeBeqL ts us
  | _, _ => false
end

mutual
/-- Structural boolean equality on `SNode` decides propositional equality. -/
theorem nodeBeq_iff : ∀ a b : SNode, (SNode.beq a b = true) ↔ a = b
  | .mk i c nfo ks, .mk j d mfo ls => by
    simp only [SNode.beq, Bool.and_eq_true, beq_iff_eq, and_assoc]
    constructor
    · rintro ⟨rfl, rfl, rfl, h⟩
      rw [(nodeBeqL_iff ks ls).mp h]
    · intro h
      injection h with h1 h2 h3 h4
      exact ⟨h1, h2, h3, (nodeBeqL_iff ks ls).mpr h4⟩
/-- Structural boolean equality on lists of `SNode` decides equality. -/
theorem nodeBeqL_iff : ∀ a b : List SNode, (nodeBeqL a b = true) ↔ a = b
  | [], [] => by simp [nodeBeqL]
  | [], _ :: _ => by simp [nodeBeqL]
  | _ :: _, [] => by simp [nodeBeqL]
  | a :: as, b :: bs => by
    simp only [nodeBeqL, Bool.and_eq_true, List.cons.injEq]
    exact and_congr (nodeBeq_iff a b) (nodeBeqL_iff as bs)
end

instance : DecidableEq SNode := fun a b =>
  decidable_of_iff (SNode.beq a b = true) (nodeBeq_iff a b)

mutual
/-- The shape of a node: its structure with ids and change flags erased.
Two nodes with the same shape have the same type id, flags, byte/point
range, and the same shapes of children — the structural-equivalence
notion used by the testable properties of the spec. -/
def SNode.shape : SNode → RawTree
  | .mk _ _ nfo ks => .mk nfo (shapeL ks)
/-- Shapes of a list of nodes. -/
def shapeL : List SNode → List RawTree
  | [] => []
  | t :: ts => SNode.shape t :: shapeL ts
end

mutual
/-- Number of nodes in a subtree (at least one). -/
def SNode.treeSize : SNode → Nat
  | .mk _ _ _ ks => 1 + nodeSizeL ks
/-- Total number of nodes in a list of subtrees. -/
def nodeSizeL : List SNode → Nat
  | [] => 0
  | t :: ts => SNode.treeSize t + nodeSizeL ts
end

mutual
/-- All subtrees of a node in preorder, the node itself first. -/
def SNode.subtrees : SNode → List SNode
  | .mk i c nfo ks => .mk i c nfo ks :: subtreesL ks
/-- All subtrees of a list of nodes, in preorder. -/
def subtreesL : List SNode → List SNode
  | [] => []
  | t :: ts => SNode.subtrees t ++ subtreesL ts
end

mutual
/-- The ids of all nodes of a subtree, in preorder. -/
def SNode.idList : SNode → List Nat
  | .mk i _ _ ks => i :: idListL ks
/-- The ids of all nodes of a list of subtrees, in preorder. -/
def idListL : List SNode → List Nat
  | [] => []
  | t :: ts => SNode.idList t ++ idListL ts
end

/-- The largest id occurring in a subtree. -/
def SNode.maxId (t : SNode) : Nat := t.idList.foldr Nat.max 0

mutual
/-- True when no node of the subtree is marked as changed: the subtree was
unaffected by the edits applied to its tree. -/
def SNode.noChanges : SNode → Bool
  | .mk _ c _ ks => !c && noChangesL ks
/-- True when no node of any subtree in the list is marked as changed. -/
def noChangesL : List SNode → Bool
  | [] => true
  | t :: ts => SNode.noChanges t && noChangesL ts
end

mutual
/-- True when the node is an error node or contains a syntax error
anywhere within it, mirroring `Node.hasError`. -/
def SNode.hasError : SNode → Bool
  | .mk _ _ nfo ks => nfo.isError || hasErrorL ks
/-- True when some subtree in the list contains a syntax error. -/
def hasErrorL : List SNode → Bool
  | [] => false
  | t :: ts => SNode.hasError t || hasErrorL ts
end

mutual
/-- Well-formed subtree: the byte range is ordered and every child lies
within the parent range (the Range invariant of the spec data model). -/
def SNode.wf : SNode → Bool
  | .mk _ _ nfo ks =>
    nfo.startIndex ≤ nfo.endIndex && wfL nfo.startIndex nfo.endIndex ks
/-- Well-formed children: each lies within the enclosing byte range. -/
def wfL (lo hi : Nat) : List SNode → Bool
  | [] => true
  | t :: ts =>
    lo ≤ t.startIndex && t.endIndex ≤ hi && SNode.wf t && wfL lo hi ts
end

/-- Modelled from the spec: the byte-offset adjustment performed by
`Tree.edit` (spec section 4.3): byte offsets at or after the start of the
edit are recomputed from the delta between the old end and the new end of
the edit, offsets strictly before the start are unchanged.  An offset
inside the replaced span is moved to the new end of the edit. -/
def shiftIndex (e : Edit) (b : Nat) : Nat :=
  if b < e.startIndex then b else e.newEndIndex + (b - e.oldEndIndex)

/-- Modelled from the spec: the point adjustment performed by `Tree.edit`
(spec section 4.3): points at or after the start of the edit are
recomputed from the delta between the old end position and the new end
position of the edit, points strictly before the start are unchanged.  A
point inside the replaced span is moved to the new end position. -/
def shiftPoint (e : Edit) (p : Point) : Point :=
  if Point.lt p e.startPosition then p
  else if Point.lt p e.oldEndPosition then e.newEndPosition
  else if p.row = e.oldEndPosition.row then
    ⟨e.newEndPosition.row, e.newEndPosition.column + (p.column - e.oldEndPosition.column)⟩
  else ⟨e.newEndPosition.row + (p.row - e.oldEndPosition.row), p.column⟩

/-- True when a node byte range touches the span replaced by the edit:
such a node is affected by the edit and marked as changed. -/
def intersectsEdit (e : Edit) (nfo : NodeInfo) : Bool :=
  e.startIndex ≤ nfo.endIndex && nfo.startIndex ≤ e.oldEndIndex

/-- The scalar data of a node after applying an edit: both byte offsets
and both points adjusted. -/
def editInfo (e : Edit) (nfo : NodeInfo) : NodeInfo :=
  { nfo with
    startIndex := shiftIndex e nfo.startIndex
    endIndex := shiftIndex e nfo.endIndex
    startPosition := shiftPoint e nfo.startPosition
    endPosition := shiftPoint e nfo.endPosition }

mutual
/-- Modelled from the spec: the node-level effect of `Tree.edit` (spec
section 4.3), whose implementation is absent from the repository sources:
every node of the subtree has its byte offsets and point coordinates
adjusted by the edit deltas, and nodes whose range touches the replaced
span are marked as changed. -/
def SNode.editNode (e : Edit) : SNode → SNode
  | .mk i c nfo ks =>
    .mk i (c || intersectsEdit e nfo) (editInfo e nfo) (editNodeL e ks)
/-- Edit adjustment mapped over a list of subtrees. -/
def editNodeL (e : Edit) : List SNode → List SNode
  | [] => []
  | t :: ts => t.editNode e :: editNodeL e ts
end

/-- The text of a document, as a list of bytes (the parse callback of the
declaration file provides UTF8-encoded text). -/
abbrev Text := List Nat

/-- Modelled from the spec: a compiled grammar artifact (spec section 3).
The node-type and field tables are those of the `Language` class; the
parse tables are externally supplied data, represented by the function
`grammar` giving, for each document text, the structure of the syntax tree
that the table-driven automaton produces for it, together with the
invariant that the root of that structure spans the whole parsed range. -/
structure Language where
  types : List String
  fields : List (Option String)
  grammar : Text → RawTree
  grammar_spans : ∀ text : Text,
    (grammar text).startIndex = 0 ∧ (grammar text).endIndex = text.length

/-- A syntax tree handed out by a successful parse, mirroring the `Tree`
class: a root node (the node storage is the tree of nodes itself). -/
structure Tree where
  rootNode : SNode
deriving DecidableEq

/-- Apply a single text edit to a syntax tree, mirroring `Tree.edit`. -/
def Tree.edit (t : Tree) (e : Edit) : Tree := ⟨t.rootNode.editNode e⟩

/-- Modelled from the spec: the progress callback of `ParseOptions`; it
receives the current byte offset and returns whether parsing should
continue (returning false cancels the parse). -/
structure ParseOptions where
  progressCallback : Option (Nat → Bool) := none

/-- Modelled from the spec: cooperative cancellation (spec sections 4.2
and 5): the progress callback is consulted at each byte offset of the
document; the parse is cancelled when it returns false at some
checkpoint. -/
def cancelled (opts : ParseOptions) (text : Text) : Bool :=
  match opts.progressCallback with
  | none => false
  | some f => (List.range (text.length + 1)).any fun i => !(f i)

/-- Total number of nodes in a queue of subtrees. -/
def qSize (q : List SNode) : Nat := (q.map SNode.treeSize).sum

theorem nodeSizeL_eq_sum (ks : List SNode) :
    nodeSizeL ks = (ks.map SNode.treeSize).sum := by
  induction ks with
  | nil => simp [nodeSizeL]
  | cons a l ih => simp [nodeSizeL, ih]

theorem qSize_children_lt (t : SNode) (rest : List SNode) :
    qSize (t.children ++ rest) < qSize (t :: rest) := by
  cases t with
  | mk i c nfo ks =>
    simp only [qSize, SNode.children, List.map_append, List.sum_append,
      List.map_cons, List.sum_cons, SNode.treeSize, ← nodeSizeL_eq_sum]
    omega

theorem qSize_tail_lt (t : SNode) (rest : List SNode) :
    qSize rest < qSize (t :: rest) := by
  cases t with
  | mk i c nfo ks =>
    simp only [qSize, List.map_cons, List.sum_cons, SNode.treeSize]
    omega

/-- A previous-tree subtree may be adopted for a position of the new parse
when it was unaffected by the edits (no node of it is marked as changed)
and its structure agrees with what the parse produces at that position. -/
def reusable (t : SNode) (sh : RawTree) : Bool :=
  t.shape == sh && t.noChanges

/-- Modelled from the spec: the subtree-reuse step of the incremental
parse (spec sections 4.2 and 9), whose implementation is absent from the
repository sources.  The queue holds the not-yet-consumed subtrees of the
previous tree in document order; to serve a request for a given shape the
parser adopts the first reusable matching subtree, skipping queue entries
that end before the requested range, breaking apart entries that overlap
it, and stopping at entries that start after it.  Each previous-tree
subtree is consumed at most once. -/
def popMatching (sh : RawTree) : List SNode → Option (SNode × List SNode)
  | [] => none
  | t :: rest =>
    if reusable t sh then some (t, rest)
    else if t.endIndex ≤ sh.startIndex then popMatching sh rest
    else if sh.endIndex ≤ t.startIndex then none
    else popMatching sh (t.children ++ rest)
termination_by q => qSize q
decreasing_by
  all_goals first
    | exact qSize_tail_lt _ _
    | exact qSize_children_lt _ _

mutual
/-- Modelled from the spec: construction of the new syntax tree during a
parse (spec section 4.2), whose implementation is absent from the
repository sources.  The target structure is realised node by node: a
reusable subtree of the previous tree with the requested shape is adopted
unchanged (keeping its node ids), otherwise a new node is allocated with
the next fresh id and its children are built recursively.  Returns the
built node, the next fresh id, and the remaining reuse queue. -/
def build (c : Nat) (q : List SNode) : RawTree → SNode × Nat × List SNode
  | .mk nfo kids =>
    match popMatching (.mk nfo kids) q with
    | some (t, rest) => (t, c, rest)
    | none =>
      let r := buildL (c + 1) q kids
      (.mk c false nfo r.1, r.2.1, r.2.2)
/-- Build a list of sibling subtrees in order, threading the fresh-id
counter and the reuse queue from left to right. -/
def buildL (c : Nat) (q : List SNode) : List RawTree → List SNode × Nat × List SNode
  | [] => ([], c, q)
  | sh :: rest =>
    let r1 := build c q sh
    let r2 := buildL r1.2.1 r1.2.2 rest
    (r1.1 :: r2.1, r2.2)
end

/-- The parser object, mirroring the `Parser` class: it owns the language
assigned with `setLanguage`, if any. -/
structure Parser where
  language : Option Language := none

/-- Assign a language to the parser, mirroring `Parser.setLanguage`. -/
def Parser.setLanguage (_p : Parser) (lang : Option Language) : Parser :=
  { language := lang }

/-- Modelled from the spec: `Parser.parse` (spec section 4.2), whose
implementation is absent from the repository sources.  Returns no tree
when no language has been assigned or when the progress callback cancels
the parse; otherwise produces the tree for the structure that the grammar
assigns to the text, reusing unaffected subtrees of the previous tree when
one is given and numbering the newly built nodes with ids fresh beyond
every id of the previous tree. -/
def Parser.parse (p : Parser) (text : Text) (oldTree : Option Tree := none)
    (opts : ParseOptions := {}) : Option Tree :=
  match p.language with
  | none => none
  | some lang =>
    if cancelled opts text then none
    else
      let sh := lang.grammar text
      match oldTree with
      | none => some ⟨(build 0 [] sh).1⟩
      | some old => some ⟨(build (old.rootNode.maxId + 1) [old.rootNode] sh).1⟩

/-- Start position of a node, mirroring `Node.startPosition`. -/
def SNode.startPosition (t : SNode) : Point := t.info.startPosition

/-- End position of a node, mirroring `Node.endPosition`. -/
def SNode.endPosition (t : SNode) : Point := t.info.endPosition

/-- Modelled from the spec: the tree cursor (spec sections 3 and 4.4),
whose implementation is absent from the repository sources.  A cursor owns
its construction node (the root it is bounded to) and the stack of child
indices leading from that root to the current node. -/
structure TreeCursor where
  root : SNode
  path : List Nat
deriving DecidableEq

/-- The child of a node at a given index, mirroring `Node.child`. -/
def childAt (t : SNode) (i : Nat) : Option SNode := t.children.get? i

/-- Resolve a stack of child indices against a subtree, yielding the node
it leads to when every index is in range. -/
def follow (t : SNode) : List Nat → Option SNode
  | [] => some t
  | i :: p =>
    match childAt t i with
    | none => none
    | some k => follow k p

/-- Create a cursor rooted at a node, mirroring `Node.walk`: the given
node is the root of the cursor and the cursor cannot walk outside it. -/
def SNode.walk (n : SNode) : TreeCursor := ⟨n, []⟩

/-- The current node of a cursor, mirroring `TreeCursor.currentNode`
(defined whenever the cursor path is valid for its root). -/
def TreeCursor.currentNode (c : TreeCursor) : Option SNode := follow c.root c.path

/-- Move to the first child of the current node, mirroring
`TreeCursor.gotoFirstChild`: fails when there are no children, leaving the
cursor unchanged. -/
def TreeCursor.gotoFirstChild (c : TreeCursor) : TreeCursor × Bool :=
  match follow c.root c.path with
  | none => (c, false)
  | some n =>
    if n.children.isEmpty then (c, false)
    else ({ c with path := c.path ++ [0] }, true)

/-- Move to the last child of the current node, mirroring
`TreeCursor.gotoLastChild`. -/
def TreeCursor.gotoLastChild (c : TreeCursor) : TreeCursor × Bool :=
  match follow c.root c.path with
  | none => (c, false)
  | some n =>
    if n.children.isEmpty then (c, false)
    else ({ c with path := c.path ++ [n.children.length - 1] }, true)

/-- Move to the parent of the current node, mirroring
`TreeCursor.gotoParent`: fails when the cursor is already on its
construction root, leaving the cursor unchanged. -/
def TreeCursor.gotoParent (c : TreeCursor) : TreeCursor × Bool :=
  if c.path.isEmpty then (c, false)
  else ({ c with path := c.path.dropLast }, true)

/-- Move to the next sibling of the current node, mirroring
`TreeCursor.gotoNextSibling`: fails at the root and at a last child. -/
def TreeCursor.gotoNextSibling (c : TreeCursor) : TreeCursor × Bool :=
  match c.path.getLast? with
  | none => (c, false)
  | some i =>
    match follow c.root c.path.dropLast with
    | none => (c, false)
    | some par =>
      if i + 1 < par.children.length then
        ({ c with path := c.path.dropLast ++ [i + 1] }, true)
      else (c, false)

/-- Move to the previous sibling of the current node, mirroring
`TreeCursor.gotoPreviousSibling`: fails at the root and at a first
child. -/
def TreeCursor.gotoPreviousSibling (c : TreeCursor) : TreeCursor × Bool :=
  match c.path.getLast? with
  | none => (c, false)
  | some i =>
    if i = 0 then (c, false)
    else ({ c with path := c.path.dropLast ++ [i - 1] }, true)

mutual
/-- The index stacks of all descendants of a node in preorder: position n
of this list is the path of descendant number n, with the node itself at
position zero (the numbering used by `TreeCursor.gotoDescendant` and
`TreeCursor.currentDescendantIndex`). -/
def SNode.allPaths : SNode → List (List Nat)
  | .mk _ _ _ ks => [] :: allPathsL 0 ks
/-- Paths into a list of sibling subtrees starting at a given child
index, in preorder. -/
def allPathsL : Nat → List SNode → List (List Nat)
  | _, [] => []
  | i, t :: ts => (SNode.allPaths t).map (fun p => i :: p) ++ allPathsL (i + 1) ts
end

/-- Move the cursor to the nth descendant of its construction root,
mirroring `TreeCursor.gotoDescendant` (zero is the root itself); an
out-of-range index leaves the cursor unchanged. -/
def TreeCursor.gotoDescendant (c : TreeCursor) (n : Nat) : TreeCursor :=
  match c.root.allPaths.get? n with
  | none => c
  | some p => { c with path := p }

/-- Index of the first element of a list satisfying a predicate, counting
from a starting offset. -/
def findChildIdx (pred : SNode → Bool) : Nat → List SNode → Option Nat
  | _, [] => none
  | i, k :: ks => if pred k then some i else findChildIdx pred (i + 1) ks

/-- Move to the first child that contains or starts after the given byte
offset, mirroring `TreeCursor.gotoFirstChildForIndex`. -/
def TreeCursor.gotoFirstChildForIndex (c : TreeCursor) (goal : Nat) : TreeCursor × Bool :=
  match follow c.root c.path with
  | none => (c, false)
  | some n =>
    match findChildIdx
        (fun k => (k.startIndex ≤ goal && goal < k.endIndex) || goal ≤ k.startIndex)
        0 n.children with
    | none => (c, false)
    | some i => ({ c with path := c.path ++ [i] }, true)

/-- Move to the first child that contains or starts after the given
position, mirroring `TreeCursor.gotoFirstChildForPosition`. -/
def TreeCursor.gotoFirstChildForPosition (c : TreeCursor) (goal : Point) : TreeCursor × Bool :=
  match follow c.root c.path with
  | none => (c, false)
  | some n =>
    match findChildIdx
        (fun k => (Point.le k.startPosition goal && Point.lt goal k.endPosition)
          || Point.le goal k.startPosition)
        0 n.children with
    | none => (c, false)
    | some i => ({ c with path := c.path ++ [i] }, true)

/-- One navigation operation of the cursor protocol of the declaration
file. -/
inductive CursorOp where
  | firstChild
  | lastChild
  | parent
  | nextSibling
  | previousSibling
  | descendant (n : Nat)
  | firstChildForIndex (goal : Nat)
  | firstChildForPosition (goal : Point)
deriving DecidableEq

/-- Apply one navigation operation to a cursor. -/
def applyOp (c : TreeCursor) : CursorOp → TreeCursor
  | .firstChild => (c.gotoFirstChild).1
  | .lastChild => (c.gotoLastChild).1
  | .parent => (c.gotoParent).1
  | .nextSibling => (c.gotoNextSibling).1
  | .previousSibling => (c.gotoPreviousSibling).1
  | .descendant n => c.gotoDescendant n
  | .firstChildForIndex g => (c.gotoFirstChildForIndex g).1
  | .firstChildForPosition g => (c.gotoFirstChildForPosition g).1

/-- Apply a sequence of navigation operations from left to right. -/
def runOps (c : TreeCursor) : List CursorOp → TreeCursor
  | [] => c
  | op :: ops => runOps (applyOp c op) ops

/-- Alignment data of a node for the changed-range diff: its scalar data
together with its number of children.  Two nodes with the same alignment
data agree on type id, flags, byte/point range, and child count; the diff
walk descends into the children exactly when the alignment data agree. -/
def SNode.topInfo (t : SNode) : NodeInfo × Nat := (t.info, t.children.length)

/-- The range spanned by two nodes together, emitted by the diff walk when
the nodes disagree at their own level. -/
def hullRange (a b : SNode) : Range :=
  { startPosition := Point.min a.startPosition b.startPosition
    endPosition := Point.max a.endPosition b.endPosition
    startIndex := min a.startIndex b.startIndex
    endIndex := max a.endIndex b.endIndex }

mutual
/-- Modelled from the spec: the structural diff of `getChangedRanges`
(spec section 4.3), whose implementation is absent from the repository
sources: the two trees are walked in lockstep, descending into children
only where the nodes agree at their own level, emitting the covering range
of both nodes where they disagree, and nothing where the subtrees are
structurally identical. -/
def diffT : SNode → SNode → List Range
  | .mk i c nfo ks, b =>
    if (SNode.mk i c nfo ks).shape = b.shape then []
    else if nfo = b.info ∧ ks.length = b.children.length then diffL ks b.children
    else [hullRange (.mk i c nfo ks) b]
/-- Lockstep diff of two lists of sibling subtrees. -/
def diffL : List SNode → List SNode → List Range
  | [], _ => []
  | _ :: _, [] => []
  | a :: as, b :: bs => diffT a b ++ diffL as bs
end

/-- Insert a range into a list sorted by start byte, keeping it sorted. -/
def insertRange (r : Range) : List Range → List Range
  | [] => [r]
  | s :: rest =>
    if r.startIndex ≤ s.startIndex then r :: s :: rest
    else s :: insertRange r rest

/-- Sort ranges by start byte (insertion sort). -/
def sortRanges : List Range → List Range
  | [] => []
  | r :: rest => insertRange r (sortRanges rest)

/-- The union of two overlapping or adjacent ranges, the first starting
no later than the second. -/
def joinRange (r s : Range) : Range :=
  { startPosition := r.startPosition
    endPosition := Point.max r.endPosition s.endPosition
    startIndex := r.startIndex
    endIndex := max r.endIndex s.endIndex }

/-- Modelled from the spec: aggregation of leaf differences into minimal
covering ranges (spec section 4.3): adjacent or overlapping ranges of a
list sorted by start byte are merged into one. -/
def mergeRanges : List Range → List Range
  | [] => []
  | [r] => [r]
  | r :: s :: rest =>
    if s.startIndex ≤ r.endIndex then mergeRanges (joinRange r s :: rest)
    else r :: mergeRanges (s :: rest)
termination_by l => l.length

/-- Modelled from the spec: `Tree.getChangedRanges` (spec section 4.3),
whose implementation is absent from the repository sources: compare this
old edited tree to a new tree for the same document and return the ordered
disjoint ranges whose syntactic structure differs, by structural diff
followed by sorting and merging of the collected ranges. -/
def Tree.getChangedRanges (t other : Tree) : List Range :=
  mergeRanges (sortRanges (diffT t.rootNode other.rootNode))


/-- A cursor position is valid when its index stack resolves against its
root. -/
def ValidCursor (c : TreeCursor) : Prop := (follow c.root c.path).isSome

/-- The byte and point coordinates of a node: start byte, end byte, start
position, end position. -/
def topCoords (n : SNode) : Nat × Nat × Point × Point :=
  (n.startIndex, n.endIndex, n.startPosition, n.endPosition)

/-- Nodes visited by repeatedly taking the next sibling from the current
cursor position, with the given amount of remaining fuel. -/
def visitFrom : TreeCursor → Nat → List SNode
  | c, 0 => c.currentNode.toList
  | c, f + 1 =>
    c.currentNode.toList ++
      (match c.gotoNextSibling with
       | (c2, true) => visitFrom c2 f
       | (_, false) => [])

/-- The child enumeration protocol of the cursor: go to the first child,
then repeatedly go to the next sibling until that fails, collecting the
current node at each stop. -/
def visitChildren (c : TreeCursor) : List SNode :=
  match c.currentNode with
  | none => []
  | some n =>
    match c.gotoFirstChild with
    | (c1, true) => visitFrom c1 (n.children.length - 1)
    | (_, false) => []

/-- Concrete node data for checks: a named non-error node of the given
type spanning the given byte range on row zero. -/
def exInfo (ty s e : Nat) : NodeInfo :=
  ⟨ty, true, false, false, false, s, e, ⟨0, s⟩, ⟨0, e⟩⟩

/-- A concrete leaf node for checks. -/
def exLeafB : SNode := .mk 1 false (exInfo 1 0 1) []

/-- A concrete leaf node for checks. -/
def exLeafC : SNode := .mk 2 false (exInfo 2 1 2) []

/-- A concrete two-child tree for checks. -/
def exRoot : SNode := .mk 0 false (exInfo 0 0 2) [exLeafB, exLeafC]

/-- A concrete tree differing from `exRoot` in its second child. -/
def exRoot2 : SNode :=
  .mk 5 false (exInfo 0 0 3) [.mk 6 false (exInfo 1 0 1) [], .mk 7 false (exInfo 2 1 3) []]

/-- A concrete language for checks: every text parses to a single named
root node of type zero spanning the whole text. -/
def exLang : Language where
  types := ["document"]
  fields := []
  grammar := fun text => .mk (exInfo 0 0 text.length) []
  grammar_spans := fun _ => ⟨rfl, rfl⟩

/-- A parser with the concrete language assigned. -/
def exParser : Parser := { language := some exLang }

/-- A concrete one-byte insertion at offset one. -/
def exEdit : Edit :=
  { startPosition := ⟨0, 1⟩
    oldEndPosition := ⟨0, 1⟩
    newEndPosition := ⟨0, 2⟩
    startIndex := 1
    oldEndIndex := 1
    newEndIndex := 2 }

/-- A concrete one-byte document. -/
def exText1 : Text := [104]

/-- A concrete two-byte document. -/
def exText2 : Text := [104, 105]

/-- The tree of a fresh parse of `exText1` with the concrete language. -/
def exPrev : Tree := ⟨(build 0 [] (exLang.grammar exText1)).1⟩

/-- The previous tree adjusted by the concrete edit. -/
def exPrevEdited : Tree := exPrev.edit exEdit

/-- The tree of an incremental parse of `exText2` against the adjusted
previous tree. -/
def exIncr : Tree :=
  ⟨(build (exPrevEdited.rootNode.maxId + 1) [exPrevEdited.rootNode]
    (exLang.grammar exText2)).1⟩

/-- The tree of a fresh parse of `exText2`. -/
def exFresh : Tree := ⟨(build 0 [] (exLang.grammar exText2)).1⟩

/-! ### Basic lemmas about the mutual tree functions -/

theorem shapeL_eq_map : ∀ ts : List SNode, shapeL ts = ts.map SNode.shape
  | [] => rfl
  | t :: ts => by simp [shapeL, shapeL_eq_map ts]

theorem shapeL_length (ts : List SNode) : (shapeL ts).length = ts.length := by
  simp [shapeL_eq_map]

theorem shape_info : ∀ t : SNode, t.shape.info = t.info
  | .mk _ _ _ _ => rfl

theorem shape_children : ∀ t : SNode, t.shape.children = shapeL t.children
  | .mk _ _ _ _ => rfl

/-- Nodes with equal shapes agree on scalar data and child count. -/
theorem topInfo_of_shape {a b : SNode} (h : a.shape = b.shape) :
    a.topInfo = b.topInfo := by
  have h1 : a.info = b.info := by
    rw [← shape_info a, ← shape_info b, h]
  have h2 : a.children.length = b.children.length := by
    have h3 := congrArg RawTree.children h
    rw [shape_children, shape_children] at h3
    have h4 := congrArg List.length h3
    simpa [shapeL_length] using h4
  simp [SNode.topInfo, h1, h2]

theorem mem_subtreesL {n : SNode} : ∀ ts : List SNode,
    n ∈ subtreesL ts ↔ ∃ t ∈ ts, n ∈ t.subtrees
  | [] => by simp [subtreesL]
  | t :: ts => by
    simp only [subtreesL, List.mem_append, mem_subtreesL ts, List.mem_cons]
    constructor
    · rintro (h | ⟨u, hu, hn⟩)
      · exact ⟨t, Or.inl rfl, h⟩
      · exact ⟨u, Or.inr hu, hn⟩
    · rintro ⟨u, h | hu, hn⟩
      · subst h; exact Or.inl hn
      · exact Or.inr ⟨u, hu, hn⟩

theorem self_mem_subtrees : ∀ t : SNode, t ∈ t.subtrees
  | .mk _ _ _ _ => by simp [SNode.subtrees]

theorem subtrees_unfold : ∀ t : SNode, t.subtrees = t :: subtreesL t.children
  | .mk _ _ _ _ => rfl

theorem child_mem_subtrees {t k : SNode} (h : k ∈ t.children) : k ∈ t.subtrees := by
  rw [subtrees_unfold]
  exact List.mem_cons_of_mem _ ((mem_subtreesL _).mpr ⟨k, h, self_mem_subtrees k⟩)

mutual
theorem subtrees_trans : ∀ t : SNode, ∀ m ∈ t.subtrees, ∀ n ∈ m.subtrees, n ∈ t.subtrees
  | .mk i c nfo ks => by
    intro m hm n hn
    simp only [SNode.subtrees, List.mem_cons] at hm ⊢
    rcases hm with h | h
    · subst h
      simp only [SNode.subtrees, List.mem_cons] at hn
      exact hn
    · exact Or.inr (subtreesL_trans ks m h n hn)
theorem subtreesL_trans : ∀ ts : List SNode, ∀ m ∈ subtreesL ts, ∀ n ∈ m.subtrees, n ∈ subtreesL ts
  | [] => by intro m hm; simp [subtreesL] at hm
  | t :: ts => by
    intro m hm n hn
    simp only [subtreesL, List.mem_append] at hm ⊢
    rcases hm with h | h
    · exact Or.inl (subtrees_trans t m h n hn)
    · exact Or.inr (subtreesL_trans ts m h n hn)
end

theorem idListL_append : ∀ as bs : List SNode, idListL (as ++ bs) = idListL as ++ idListL bs
  | [], bs => rfl
  | a :: as, bs => by simp [idListL, idListL_append as bs]

theorem idList_unfold : ∀ t : SNode, t.idList = t.id :: idListL t.children
  | .mk _ _ _ _ => rfl

mutual
theorem id_mem_idList : ∀ t : SNode, ∀ n ∈ t.subtrees, n.id ∈ t.idList
  | .mk i c nfo ks => by
    intro n hn
    simp only [SNode.subtrees, List.mem_cons] at hn
    simp only [SNode.idList, List.mem_cons]
    rcases hn with h | h
    · subst h; exact Or.inl rfl
    · exact Or.inr (id_mem_idListL ks n h)
theorem id_mem_idListL : ∀ ts : List SNode, ∀ n ∈ subtreesL ts, n.id ∈ idListL ts
  | [] => by intro n hn; simp [subtreesL] at hn
  | t :: ts => by
    intro n hn
    simp only [subtreesL, List.mem_append] at hn
    simp only [idListL, List.mem_append]
    rcases hn with h | h
    · exact Or.inl (id_mem_idList t n h)
    · exact Or.inr (id_mem_idListL ts n h)
end

theorem le_foldr_max : ∀ {l : List Nat} {x : Nat}, x ∈ l → x ≤ l.foldr Nat.max 0
  | a :: l, x, h => by
    rcases List.mem_cons.mp h with h1 | h1
    · subst h1; exact Nat.le_max_left _ _
    · exact Nat.le_trans (le_foldr_max h1) (Nat.le_max_right _ _)

theorem le_maxId {t : SNode} {x : Nat} (h : x ∈ t.idList) : x ≤ t.maxId :=
  le_foldr_max h

mutual
theorem noChanges_subtree : ∀ t : SNode, t.noChanges = true →
    ∀ n ∈ t.subtrees, n.noChanges = true
  | .mk i c nfo ks => by
    intro h n hn
    simp only [SNode.noChanges, Bool.and_eq_true] at h
    simp only [SNode.subtrees, List.mem_cons] at hn
    rcases hn with h1 | h1
    · subst h1; simp [SNode.noChanges, h.1, h.2]
    · exact noChangesL_subtree ks h.2 n h1
theorem noChangesL_subtree : ∀ ts : List SNode, noChangesL ts = true →
    ∀ n ∈ subtreesL ts, n.noChanges = true
  | [] => by intro h n hn; simp [subtreesL] at hn
  | t :: ts => by
    intro h n hn
    simp only [noChangesL, Bool.and_eq_true] at h
    simp only [subtreesL, List.mem_append] at hn
    rcases hn with h1 | h1
    · exact noChanges_subtree t h.1 n h1
    · exact noChangesL_subtree ts h.2 n h1
end

mutual
/-- Shape-equal nodes have shape-equal subtree enumerations: the whole
structure of the tree, node by node in preorder, is determined by the
shape of its root. -/
theorem subtrees_shape_eq : ∀ a b : SNode, a.shape = b.shape →
    a.subtrees.map SNode.shape = b.subtrees.map SNode.shape
  | .mk i c nfo ks, .mk j d mfo ls => by
    intro h
    simp only [SNode.shape] at h
    injection h with h1 h2
    simp only [SNode.subtrees, List.map_cons, SNode.shape, h1, h2]
    rw [subtreesL_shape_eq ks ls h2]
theorem subtreesL_shape_eq : ∀ as bs : List SNode, shapeL as = shapeL bs →
    (subtreesL as).map SNode.shape = (subtreesL bs).map SNode.shape
  | [], [] => by intro h; rfl
  | [], b :: bs => by intro h; cases h
  | a :: as, [] => by intro h; cases h
  | a :: as, b :: bs => by
    intro h
    simp only [shapeL] at h
    injection h with h1 h2
    simp only [subtreesL, List.map_append]
    rw [subtrees_shape_eq a b h1, subtreesL_shape_eq as bs h2]
end

mutual
/-- The has-error flag of a node is determined by its shape. -/
theorem hasError_of_shape : ∀ a b : SNode, a.shape = b.shape →
    a.hasError = b.hasError
  | .mk i c nfo ks, .mk j d mfo ls => by
    intro h
    simp only [SNode.shape] at h
    injection h with h1 h2
    simp only [SNode.hasError, h1]
    rw [hasErrorL_of_shape ks ls h2]
theorem hasErrorL_of_shape : ∀ as bs : List SNode, shapeL as = shapeL bs →
    hasErrorL as = hasErrorL bs
  | [], [] => by intro h; rfl
  | [], b :: bs => by intro h; cases h
  | a :: as, [] => by intro h; cases h
  | a :: as, b :: bs => by
    intro h
    simp only [shapeL] at h
    injection h with h1 h2
    simp only [hasErrorL]
    rw [hasError_of_shape a b h1, hasErrorL_of_shape as bs h2]
end

theorem wf_unfold : ∀ t : SNode,
    t.wf = (decide (t.startIndex ≤ t.endIndex) && wfL t.startIndex t.endIndex t.children)
  | .mk _ _ _ _ => rfl

theorem wfL_mem {lo hi : Nat} : ∀ {ts : List SNode}, wfL lo hi ts = true →
    ∀ k ∈ ts, lo ≤ k.startIndex ∧ k.endIndex ≤ hi ∧ k.wf = true
  | [], _ => by intro k hk; cases hk
  | t :: ts, h => by
    intro k hk
    simp only [wfL, Bool.and_eq_true, decide_eq_true_eq] at h
    rcases List.mem_cons.mp hk with h1 | h1
    · subst h1; exact ⟨h.1.1.1, h.1.1.2, h.1.2⟩
    · exact wfL_mem h.2 k h1

theorem wf_children {t : SNode} (h : t.wf = true) : ∀ k ∈ t.children, k.wf = true := by
  intro k hk
  rw [wf_unfold] at h
  simp only [Bool.and_eq_true] at h
  exact (wfL_mem h.2 k hk).2.2

mutual
/-- Every subtree of a well-formed node lies within the byte range of the
node. -/
theorem subtree_range_le : ∀ t : SNode, t.wf = true →
    ∀ n ∈ t.subtrees, t.startIndex ≤ n.startIndex ∧ n.endIndex ≤ t.endIndex
  | .mk i c nfo ks => by
    intro h n hn
    simp only [SNode.subtrees, List.mem_cons] at hn
    rcases hn with h1 | h1
    · subst h1; exact ⟨Nat.le_refl _, Nat.le_refl _⟩
    · rw [wf_unfold] at h
      simp only [Bool.and_eq_true] at h
      exact subtreeL_range_le ks _ _ h.2 n h1
theorem subtreeL_range_le : ∀ (ts : List SNode) (lo hi : Nat), wfL lo hi ts = true →
    ∀ n ∈ subtreesL ts, lo ≤ n.startIndex ∧ n.endIndex ≤ hi
  | [], lo, hi => by intro h n hn; simp [subtreesL] at hn
  | t :: ts, lo, hi => by
    intro h n hn
    simp only [wfL, Bool.and_eq_true, decide_eq_true_eq] at h
    simp only [subtreesL, List.mem_append] at hn
    rcases hn with h1 | h1
    · have h2 := subtree_range_le t h.1.2 n h1
      exact ⟨Nat.le_trans h.1.1.1 h2.1, Nat.le_trans h2.2 h.1.1.2⟩
    · exact subtreeL_range_le ts lo hi h.2 n h1
end

/-! ### Lemmas about subtree reuse and tree construction -/

theorem subtreesL_append : ∀ as bs : List SNode,
    subtreesL (as ++ bs) = subtreesL as ++ subtreesL bs
  | [], bs => rfl
  | a :: as, bs => by simp [subtreesL, subtreesL_append as bs]

/-- What a successful reuse lookup guarantees: the adopted subtree has the
requested shape, carries no change marks, comes from the queue, and the
remaining queue holds only subtrees of the original queue; no node id is
duplicated or invented by the lookup. -/
theorem popMatching_spec (sh : RawTree) : ∀ q t q₂,
    popMatching sh q = some (t, q₂) →
      t.shape = sh ∧ t.noChanges = true ∧
      t ∈ subtreesL q ∧ (∀ x ∈ subtreesL q₂, x ∈ subtreesL q) ∧
      (t.idList ++ idListL q₂).Sublist (idListL q) := by
  intro q
  induction q using popMatching.induct sh with
  | case1 =>
    intro t q₂ h
    simp [popMatching] at h
  | case2 u ts hr =>
    intro t q₂ h
    rw [popMatching, if_pos hr] at h
    simp only [Option.some.injEq, Prod.mk.injEq] at h
    obtain ⟨rfl, rfl⟩ := h
    have hru := hr
    simp only [reusable, Bool.and_eq_true, beq_iff_eq] at hru
    refine ⟨hru.1, hru.2, ?_, ?_, ?_⟩
    · simp only [subtreesL, List.mem_append]
      exact Or.inl (self_mem_subtrees _)
    · intro x hx
      simp only [subtreesL, List.mem_append]
      exact Or.inr hx
    · simp only [idListL]
      exact List.Sublist.refl _
  | case3 u ts hr hle ih =>
    intro t q₂ h
    rw [popMatching, if_neg hr, if_pos hle] at h
    obtain ⟨h1, h2, h3, h4, h5⟩ := ih t q₂ h
    refine ⟨h1, h2, ?_, ?_, ?_⟩
    · simp only [subtreesL, List.mem_append]
      exact Or.inr h3
    · intro x hx
      simp only [subtreesL, List.mem_append]
      exact Or.inr (h4 x hx)
    · simp only [idListL]
      exact h5.trans (List.sublist_append_right _ _)
  | case4 u ts hr hle hge =>
    intro t q₂ h
    rw [popMatching, if_neg hr, if_neg hle, if_pos hge] at h
    cases h
  | case5 u ts hr hle hge ih =>
    intro t q₂ h
    rw [popMatching, if_neg hr, if_neg hle, if_neg hge] at h
    obtain ⟨h1, h2, h3, h4, h5⟩ := ih t q₂ h
    have hsub : ∀ x ∈ subtreesL (u.children ++ ts), x ∈ subtreesL (u :: ts) := by
      intro x hx
      rw [subtreesL_append] at hx
      simp only [subtreesL, List.mem_append]
      rcases List.mem_append.mp hx with h6 | h6
      · left
        rw [subtrees_unfold]
        exact List.mem_cons_of_mem _ h6
      · exact Or.inr h6
    have hids : (idListL (u.children ++ ts)).Sublist (idListL (u :: ts)) := by
      rw [idListL_append]
      simp only [idListL]
      rw [idList_unfold]
      exact List.sublist_cons_of_sublist _ (List.Sublist.refl _)
    exact ⟨h1, h2, hsub t h3, fun x hx => hsub x (h4 x hx), h5.trans hids⟩

mutual
/-- What tree construction guarantees: the built node has the requested
shape; the fresh-id counter only grows; the remaining queue holds only
subtrees of the incoming queue and no invented ids; and every node of the
result is either an unchanged adopted subtree of the queue or a newly
built node with an id at or above the incoming counter. -/
theorem build_spec : ∀ (sh : RawTree) (c : Nat) (q : List SNode),
    (build c q sh).1.shape = sh ∧
    c ≤ (build c q sh).2.1 ∧
    (∀ x ∈ subtreesL (build c q sh).2.2, x ∈ subtreesL q) ∧
    (idListL (build c q sh).2.2).Sublist (idListL q) ∧
    (∀ n ∈ (build c q sh).1.subtrees,
      (n ∈ subtreesL q ∧ n.noChanges = true) ∨ c ≤ n.id)
  | .mk nfo kids, c, q => by
    cases hpop : popMatching (.mk nfo kids) q with
    | some r =>
      obtain ⟨t, q₂⟩ := r
      obtain ⟨h1, h2, h3, h4, h5⟩ := popMatching_spec _ q t q₂ hpop
      simp only [build, hpop]
      refine ⟨h1, Nat.le_refl c, h4, ?_, ?_⟩
      · exact (List.sublist_append_right _ _).trans h5
      · intro n hn
        exact Or.inl ⟨subtreesL_trans q t h3 n hn, noChanges_subtree t h2 n hn⟩
    | none =>
      obtain ⟨hsh, hc, hq, hids, hmem⟩ := buildL_spec kids (c + 1) q
      simp only [build, hpop]
      refine ⟨?_, ?_, hq, hids, ?_⟩
      · simp only [SNode.shape, hsh]
      · exact Nat.le_trans (Nat.le_succ c) hc
      · intro n hn
        rw [subtrees_unfold] at hn
        rcases List.mem_cons.mp hn with h | h
        · subst h
          exact Or.inr (Nat.le_refl c)
        · rcases hmem n h with h6 | h6
          · exact Or.inl h6
          · exact Or.inr (Nat.le_trans (Nat.le_succ c) h6)
theorem buildL_spec : ∀ (shs : List RawTree) (c : Nat) (q : List SNode),
    shapeL (buildL c q shs).1 = shs ∧
    c ≤ (buildL c q shs).2.1 ∧
    (∀ x ∈ subtreesL (buildL c q shs).2.2, x ∈ subtreesL q) ∧
    (idListL (buildL c q shs).2.2).Sublist (idListL q) ∧
    (∀ n ∈ subtreesL (buildL c q shs).1,
      (n ∈ subtreesL q ∧ n.noChanges = true) ∨ c ≤ n.id)
  | [], c, q =>
    ⟨rfl, Nat.le_refl c, fun x hx => hx, List.Sublist.refl _,
      fun n hn => by simp [subtreesL] at hn⟩
  | sh :: rest, c, q => by
    obtain ⟨h1, h2, h3, h4, h5⟩ := build_spec sh c q
    obtain ⟨g1, g2, g3, g4, g5⟩ :=
      buildL_spec rest (build c q sh).2.1 (build c q sh).2.2
    simp only [buildL]
    refine ⟨?_, Nat.le_trans h2 g2, ?_, g4.trans h4, ?_⟩
    · simp only [shapeL, h1, g1]
    · intro x hx
      exact h3 x (g3 x hx)
    · intro n hn
      simp only [subtreesL, List.mem_append] at hn
      rcases hn with h | h
      · exact h5 n h
      · rcases g5 n h with h6 | h6
        · exact Or.inl ⟨h3 n h6.1, h6.2⟩
        · exact Or.inr (Nat.le_trans h2 h6)
end

theorem subtreesL_singleton (t : SNode) : subtreesL [t] = t.subtrees := by
  simp [subtreesL]

theorem idListL_singleton (t : SNode) : idListL [t] = t.idList := by
  simp [idListL]

mutual
/-- Tree construction never duplicates a node id: starting from a queue
whose ids are pairwise distinct and all below the fresh-id counter, the
ids of the built tree together with the ids left in the queue are pairwise
distinct, and every id of the built tree either comes from the queue or is
a fresh id allocated by the counter. -/
theorem build_nodup : ∀ (sh : RawTree) (c : Nat) (q : List SNode),
    (∀ i ∈ idListL q, i < c) → (idListL q).Nodup →
    ((build c q sh).1.idList ++ idListL (build c q sh).2.2).Nodup ∧
    (∀ i ∈ (build c q sh).1.idList,
      i ∈ idListL q ∨ (c ≤ i ∧ i < (build c q sh).2.1))
  | .mk nfo kids, c, q => by
    intro hlt hnd
    cases hpop : popMatching (.mk nfo kids) q with
    | some r =>
      obtain ⟨t, q₂⟩ := r
      obtain ⟨_, _, _, _, h5⟩ := popMatching_spec _ q t q₂ hpop
      simp only [build, hpop]
      constructor
      · exact h5.nodup hnd
      · intro i hi
        exact Or.inl (h5.subset (List.mem_append_left _ hi))
    | none =>
      have hlt1 : ∀ i ∈ idListL q, i < c + 1 := fun i hi => Nat.lt_succ_of_lt (hlt i hi)
      obtain ⟨ndL, memL⟩ := buildL_nodup kids (c + 1) q hlt1 hnd
      obtain ⟨_, hc, _, hqids, _⟩ := buildL_spec kids (c + 1) q
      simp only [build, hpop, SNode.idList]
      constructor
      · rw [List.cons_append, List.nodup_cons]
        refine ⟨?_, ndL⟩
        intro hmem
        rcases List.mem_append.mp hmem with h | h
        · rcases memL c h with h1 | h1
          · exact absurd (hlt c h1) (Nat.lt_irrefl c)
          · omega
        · have h1 := hqids.subset h
          exact absurd (hlt c h1) (Nat.lt_irrefl c)
      · intro i hi
        rcases List.mem_cons.mp hi with h | h
        · subst h
          exact Or.inr ⟨Nat.le_refl _, Nat.lt_of_lt_of_le (Nat.lt_succ_self _) hc⟩
        · rcases memL i h with h1 | h1
          · exact Or.inl h1
          · exact Or.inr ⟨Nat.le_trans (Nat.le_succ c) h1.1, h1.2⟩
theorem buildL_nodup : ∀ (shs : List RawTree) (c : Nat) (q : List SNode),
    (∀ i ∈ idListL q, i < c) → (idListL q).Nodup →
    (idListL (buildL c q shs).1 ++ idListL (buildL c q shs).2.2).Nodup ∧
    (∀ i ∈ idListL (buildL c q shs).1,
      i ∈ idListL q ∨ (c ≤ i ∧ i < (buildL c q shs).2.1))
  | [], c, q => by
    intro hlt hnd
    refine ⟨by simpa [idListL] using hnd, ?_⟩
    intro i hi
    simp [idListL] at hi
  | sh :: rest, c, q => by
    intro hlt hnd
    obtain ⟨nd1, mem1⟩ := build_nodup sh c q hlt hnd
    obtain ⟨_, hc1, _, hq1, _⟩ := build_spec sh c q
    have hlt1 : ∀ i ∈ idListL (build c q sh).2.2, i < (build c q sh).2.1 :=
      fun i hi => Nat.lt_of_lt_of_le (hlt i (hq1.subset hi)) hc1
    have hnd1 : (idListL (build c q sh).2.2).Nodup :=
      (List.nodup_append.mp nd1).2.1
    obtain ⟨nd2, mem2⟩ :=
      buildL_nodup rest (build c q sh).2.1 (build c q sh).2.2 hlt1 hnd1
    obtain ⟨_, hc2, _, hq2, _⟩ :=
      buildL_spec rest (build c q sh).2.1 (build c q sh).2.2
    have hdisj : (build c q sh).1.idList.Disjoint (idListL (build c q sh).2.2) :=
      (List.nodup_append.mp nd1).2.2
    simp only [buildL, idListL]
    constructor
    · rw [List.append_assoc, List.nodup_append]
      refine ⟨(List.nodup_append.mp nd1).1, nd2, ?_⟩
      intro x hx hmem
      rcases List.mem_append.mp hmem with h | h
      · rcases mem2 x h with h1 | h1
        · exact hdisj hx h1
        · rcases mem1 x hx with h2 | h2
          · exact absurd (Nat.lt_of_lt_of_le (hlt x h2) hc1) (Nat.not_lt.mpr h1.1)
          · exact absurd h2.2 (Nat.not_lt.mpr h1.1)
      · exact hdisj hx (hq2.subset h)
    · intro i hi
      rcases List.mem_append.mp hi with h | h
      · rcases mem1 i h with h1 | h1
        · exact Or.inl h1
        · exact Or.inr ⟨h1.1, Nat.lt_of_lt_of_le h1.2 hc2⟩
      · rcases mem2 i h with h1 | h1
        · exact Or.inl (hq1.subset h1)
        · exact Or.inr ⟨Nat.le_trans hc1 h1.1, h1.2⟩
end

/-- Case analysis of a successful parse: a language was assigned, the
parse was not cancelled, and the resulting root is the constructed tree
for the structure that the grammar assigns to the text, either without a
reuse queue (fresh parse) or with the previous root as the reuse queue
and ids allocated above every id of the previous tree. -/
theorem parse_eq_some {p : Parser} {text : Text} {old : Option Tree}
    {opts : ParseOptions} {t : Tree} (h : p.parse text old opts = some t) :
    ∃ lang, p.language = some lang ∧ cancelled opts text = false ∧
      ((old = none ∧ t.rootNode = (build 0 [] (lang.grammar text)).1) ∨
       (∃ o, old = some o ∧
         t.rootNode =
           (build (o.rootNode.maxId + 1) [o.rootNode] (lang.grammar text)).1)) := by
  unfold Parser.parse at h
  cases hl : p.language with
  | none => rw [hl] at h; cases h
  | some lang =>
    rw [hl] at h
    simp only at h
    cases hc : cancelled opts text with
    | true => rw [if_pos hc] at h; cases h
    | false =>
      rw [if_neg (by simp [hc])] at h
      refine ⟨lang, rfl, rfl, ?_⟩
      cases old with
      | none =>
        simp only [Option.some.injEq] at h
        exact Or.inl ⟨rfl, by rw [← h]⟩
      | some o =>
        simp only [Option.some.injEq] at h
        exact Or.inr ⟨o, rfl, by rw [← h]⟩

/-! ### The claims -/

/-- Claim C2: for every language and text input, two calls to parse on the
same text with no previous tree return trees with identical structure —
the same shape (type id, byte/point range, flags) at every corresponding
node in preorder, and the same has-error flag — although the node ids of
corresponding nodes may differ between the two trees. -/
theorem parse_idempotent (p : Parser) (text : Text) (opts : ParseOptions)
    (t1 t2 : Tree) (h1 : p.parse text none opts = some t1)
    (h2 : p.parse text none opts = some t2) :
    t1.rootNode.subtrees.map SNode.shape = t2.rootNode.subtrees.map SNode.shape ∧
    t1.rootNode.shape = t2.rootNode.shape ∧
    t1.rootNode.hasError = t2.rootNode.hasError := by
  have h : t1 = t2 := by
    have h3 := h1.symm.trans h2
    exact Option.some.inj h3
  subst h
  exact ⟨rfl, rfl, rfl⟩

/-- Claim C3: for every valid language artifact and every text input,
after a successful parse the end byte index of the root node equals the
byte length of the parsed range (the whole document). -/
theorem parse_rootNode_endIndex (p : Parser) (text : Text) (old : Option Tree)
    (opts : ParseOptions) (t : Tree) (h : p.parse text old opts = some t) :
    t.rootNode.endIndex = text.length := by
  obtain ⟨lang, _, _, hcase⟩ := parse_eq_some h
  have hsh : t.rootNode.shape = lang.grammar text := by
    rcases hcase with ⟨_, hr⟩ | ⟨o, _, hr⟩
    · rw [hr]; exact (build_spec _ 0 []).1
    · rw [hr]; exact (build_spec _ _ _).1
  have hend : t.rootNode.endIndex = (lang.grammar text).endIndex := by
    rw [← hsh]
    show t.rootNode.info.endIndex = t.rootNode.shape.info.endIndex
    rw [shape_info]
  rw [hend, (lang.grammar_spans text).2]

/-- Claim C1: for every text, single edit producing a new text, and
previous tree obtained by parsing the old text and applying the edit,
parsing the new text with the previous tree produces a tree structurally
equivalent (same shape: type ids, ranges, and error flags) to a fresh
parse of the new text — here proved at every node, which subsumes every
node not strictly inside the edited range. -/
theorem incremental_parse_equiv (p : Parser) (textOld textNew : Text) (e : Edit)
    (opts1 opts2 opts3 : ParseOptions) (prev incr fresh : Tree)
    (hprev : p.parse textOld none opts1 = some prev)
    (hincr : p.parse textNew (some (prev.edit e)) opts2 = some incr)
    (hfresh : p.parse textNew none opts3 = some fresh) :
    incr.rootNode.shape = fresh.rootNode.shape ∧
    incr.rootNode.subtrees.map SNode.shape = fresh.rootNode.subtrees.map SNode.shape := by
  obtain ⟨lang1, hl1, _, hcase1⟩ := parse_eq_some hincr
  obtain ⟨lang2, hl2, _, hcase2⟩ := parse_eq_some hfresh
  have hlang : lang1 = lang2 := by
    have h3 := hl1.symm.trans hl2
    exact Option.some.inj h3
  subst hlang
  have hi : incr.rootNode.shape = lang1.grammar textNew := by
    rcases hcase1 with ⟨hn, _⟩ | ⟨o, _, hr⟩
    · cases hn
    · rw [hr]; exact (build_spec _ _ _).1
  have hf : fresh.rootNode.shape = lang1.grammar textNew := by
    rcases hcase2 with ⟨_, hr⟩ | ⟨o, ho, _⟩
    · rw [hr]; exact (build_spec _ 0 []).1
    · cases ho
  have hshape : incr.rootNode.shape = fresh.rootNode.shape := hi.trans hf.symm
  exact ⟨hshape, subtrees_shape_eq _ _ hshape⟩

/-- Claim C9: for every invocation of parse, the result is no tree exactly
when the operation was cancelled by the progress callback returning a
cancel signal or when no language has been set on the parser; in every
other case a new tree is returned. -/
theorem parse_none_iff (p : Parser) (text : Text) (old : Option Tree)
    (opts : ParseOptions) :
    p.parse text old opts = none ↔
      (p.language = none ∨ cancelled opts text = true) := by
  unfold Parser.parse
  cases hl : p.language with
  | none => simp
  | some lang =>
    cases hc : cancelled opts text with
    | true => simp [hc]
    | false => cases old <;> simp [hc]

/-- Claim C6: for every incremental reparse from a previous tree, a node
of the new tree has an id occurring in the previous tree if and only if
that node is a subtree of the previous tree that was unchanged by the
edits — that is, exactly the unchanged subtrees reused by the parser keep
their ids, while every newly built node receives an id fresh beyond the
previous tree. -/
theorem node_id_stable_iff_reused (p : Parser) (text : Text) (old : Tree)
    (opts : ParseOptions) (t : Tree) (h : p.parse text (some old) opts = some t) :
    ∀ n ∈ t.rootNode.subtrees,
      ((∃ o ∈ old.rootNode.subtrees, o.id = n.id) ↔
        (n ∈ old.rootNode.subtrees ∧ n.noChanges = true)) := by
  obtain ⟨lang, _, _, hcase⟩ := parse_eq_some h
  rcases hcase with ⟨hn, _⟩ | ⟨o, ho, hr⟩
  · cases hn
  · have ho2 : o = old := Option.some.inj ho.symm
    rw [ho2] at hr
    intro n hn
    rw [hr] at hn
    have hmem := (build_spec (lang.grammar text) (old.rootNode.maxId + 1)
      [old.rootNode]).2.2.2.2 n hn
    rw [subtreesL_singleton] at hmem
    constructor
    · rintro ⟨ob, hob, hid⟩
      rcases hmem with h1 | h1
      · exact h1
      · have h2 : ob.id ≤ old.rootNode.maxId :=
          le_maxId (id_mem_idList old.rootNode ob hob)
        omega
    · rintro ⟨h1, _⟩
      exact ⟨n, h1, rfl⟩

/-- Claim C10: within any single syntax tree produced by parse, node ids
are unique: the preorder enumeration of the ids of all nodes of the tree
has no duplicates (given that the previous tree, when one is supplied,
itself has unique ids). -/
theorem parse_ids_nodup (p : Parser) (text : Text) (old : Option Tree)
    (opts : ParseOptions) (t : Tree) (h : p.parse text old opts = some t)
    (hold : ∀ o : Tree, old = some o → o.rootNode.idList.Nodup) :
    t.rootNode.idList.Nodup := by
  obtain ⟨lang, _, _, hcase⟩ := parse_eq_some h
  rcases hcase with ⟨hn, hr⟩ | ⟨o, ho, hr⟩
  · have h1 := build_nodup (lang.grammar text) 0 []
      (by intro i hi; simp [idListL] at hi) (by simp [idListL])
    rw [hr]
    exact (List.nodup_append.mp h1.1).1
  · have hnd : (idListL [o.rootNode]).Nodup := by
      rw [idListL_singleton]
      exact hold o ho
    have hlt : ∀ i ∈ idListL [o.rootNode], i < o.rootNode.maxId + 1 := by
      intro i hi
      rw [idListL_singleton] at hi
      exact Nat.lt_succ_of_le (le_maxId hi)
    have h1 := build_nodup (lang.grammar text) (o.rootNode.maxId + 1)
      [o.rootNode] hlt hnd
    rw [hr]
    exact (List.nodup_append.mp h1.1).1

/-! ### Lemmas about the tree cursor -/

theorem follow_append : ∀ (p : List Nat) (t : SNode) (q : List Nat),
    follow t (p ++ q) = (follow t p).bind (fun n => follow n q)
  | [], t, q => by simp [follow]
  | i :: p, t, q => by
    simp only [List.cons_append, follow]
    cases childAt t i with
    | none => rfl
    | some k => exact follow_append p k q

theorem childAt_mem {t k : SNode} {i : Nat} (h : childAt t i = some k) :
    k ∈ t.children :=
  List.get?_mem h

theorem follow_mem_subtrees : ∀ (p : List Nat) (t n : SNode),
    follow t p = some n → n ∈ t.subtrees
  | [], t, n => by
    intro h
    rw [follow] at h
    rw [← Option.some.inj h]
    exact self_mem_subtrees t
  | i :: p, t, n => by
    intro h
    rw [follow] at h
    cases hch : childAt t i with
    | none => rw [hch] at h; cases h
    | some k =>
      rw [hch] at h
      exact subtrees_trans t k (child_mem_subtrees (childAt_mem hch)) n
        (follow_mem_subtrees p k n h)

theorem valid_snoc {R : SNode} {p : List Nat} {n : SNode} {i : Nat}
    (h : follow R p = some n) {k : SNode} (hk : childAt n i = some k) :
    follow R (p ++ [i]) = some k := by
  rw [follow_append, h]
  simp [follow, hk]

theorem follow_snoc_elim {R : SNode} {p : List Nat} {i : Nat}
    (h : (follow R (p ++ [i])).isSome) :
    ∃ n, follow R p = some n ∧ ∃ k, childAt n i = some k := by
  rw [follow_append] at h
  cases hp : follow R p with
  | none => rw [hp] at h; simp at h
  | some n =>
    rw [hp] at h
    have h2 : (follow n [i]).isSome := h
    cases hch : childAt n i with
    | none => simp [follow, hch] at h2
    | some k => exact ⟨n, rfl, k, hch⟩

mutual
theorem allPaths_valid : ∀ (t : SNode), ∀ p ∈ t.allPaths, (follow t p).isSome
  | .mk i c nfo ks => by
    intro p hp
    simp only [SNode.allPaths, List.mem_cons] at hp
    rcases hp with h | h
    · subst h; simp [follow]
    · obtain ⟨j, u, p2, rfl, hj, hu, hv⟩ := allPathsL_valid 0 ks p h
      rw [follow]
      have hch : childAt (SNode.mk i c nfo ks) j = some u := by
        simp only [childAt, SNode.children]
        simpa using hu
      rw [hch]
      exact hv
theorem allPathsL_valid : ∀ (i : Nat) (ts : List SNode), ∀ q ∈ allPathsL i ts,
    ∃ j t p, q = j :: p ∧ i ≤ j ∧ ts.get? (j - i) = some t ∧ (follow t p).isSome
  | i, [] => by intro q hq; simp [allPathsL] at hq
  | i, t :: ts => by
    intro q hq
    simp only [allPathsL, List.mem_append, List.mem_map] at hq
    rcases hq with ⟨p, hp, rfl⟩ | h
    · exact ⟨i, t, p, rfl, Nat.le_refl i, by simp, allPaths_valid t p hp⟩
    · obtain ⟨j, u, p, rfl, hj, hu, hv⟩ := allPathsL_valid (i + 1) ts q h
      refine ⟨j, u, p, rfl, Nat.le_trans (Nat.le_succ i) hj, ?_, hv⟩
      have hji : j - i = (j - (i + 1)) + 1 := by omega
      rw [hji]
      simpa using hu
end

theorem gotoFirstChild_spec (c : TreeCursor) (h : ValidCursor c) :
    (c.gotoFirstChild).1.root = c.root ∧ ValidCursor (c.gotoFirstChild).1 := by
  unfold TreeCursor.gotoFirstChild
  split
  · exact ⟨rfl, h⟩
  · next n heq =>
    split
    · exact ⟨rfl, h⟩
    · next hne =>
      refine ⟨rfl, ?_⟩
      have hne2 : n.children ≠ [] := fun h2 => hne (by simp [h2])
      cases hc : n.children with
      | nil => exact absurd hc hne2
      | cons a l =>
        have hch : childAt n 0 = some a := by simp [childAt, hc]
        show (follow c.root (c.path ++ [0])).isSome
        rw [valid_snoc heq hch]
        rfl

theorem gotoLastChild_spec (c : TreeCursor) (h : ValidCursor c) :
    (c.gotoLastChild).1.root = c.root ∧ ValidCursor (c.gotoLastChild).1 := by
  unfold TreeCursor.gotoLastChild
  split
  · exact ⟨rfl, h⟩
  · next n heq =>
    split
    · exact ⟨rfl, h⟩
    · next hne =>
      refine ⟨rfl, ?_⟩
      have hne2 : n.children ≠ [] := fun h2 => hne (by simp [h2])
      have hlt : n.children.length - 1 < n.children.length := by
        cases hc : n.children with
        | nil => exact absurd hc hne2
        | cons a l => simp
      have hch : childAt n (n.children.length - 1) =
          some (n.children.get ⟨n.children.length - 1, hlt⟩) :=
        List.get?_eq_get hlt
      show (follow c.root (c.path ++ [n.children.length - 1])).isSome
      rw [valid_snoc heq hch]
      rfl

theorem gotoParent_spec (c : TreeCursor) (h : ValidCursor c) :
    (c.gotoParent).1.root = c.root ∧ ValidCursor (c.gotoParent).1 := by
  unfold TreeCursor.gotoParent
  split
  · exact ⟨rfl, h⟩
  · next hne =>
    refine ⟨rfl, ?_⟩
    have hne2 : c.path ≠ [] := fun h2 => hne (by simp [h2])
    show (follow c.root c.path.dropLast).isSome
    have hdec := List.dropLast_append_getLast hne2
    unfold ValidCursor at h
    rw [← hdec] at h
    obtain ⟨n, hn, k, hk⟩ := follow_snoc_elim h
    rw [hn]
    rfl

theorem gotoNextSibling_spec (c : TreeCursor) (h : ValidCursor c) :
    (c.gotoNextSibling).1.root = c.root ∧ ValidCursor (c.gotoNextSibling).1 := by
  unfold TreeCursor.gotoNextSibling
  split
  · exact ⟨rfl, h⟩
  · next i hl =>
    split
    · exact ⟨rfl, h⟩
    · next par hpar =>
      split
      · next hlt =>
        refine ⟨rfl, ?_⟩
        have hch : childAt par (i + 1) = some (par.children.get ⟨i + 1, hlt⟩) :=
          List.get?_eq_get hlt
        show (follow c.root (c.path.dropLast ++ [i + 1])).isSome
        rw [valid_snoc hpar hch]
        rfl
      · exact ⟨rfl, h⟩

theorem gotoPreviousSibling_spec (c : TreeCursor) (h : ValidCursor c) :
    (c.gotoPreviousSibling).1.root = c.root ∧
    ValidCursor (c.gotoPreviousSibling).1 := by
  unfold TreeCursor.gotoPreviousSibling
  split
  · exact ⟨rfl, h⟩
  · next i hl =>
    split
    · exact ⟨rfl, h⟩
    · next hi0 =>
      refine ⟨rfl, ?_⟩
      have hdec : c.path.dropLast ++ [i] = c.path :=
        List.dropLast_append_getLast? i (Option.mem_def.mpr hl)
      unfold ValidCursor at h
      rw [← hdec] at h
      obtain ⟨n, hn, k, hk⟩ := follow_snoc_elim h
      have hilt : i < n.children.length := by
        by_contra hge
        rw [childAt, List.get?_eq_none.mpr (Nat.le_of_not_lt hge)] at hk
        cases hk
      have him : i - 1 < n.children.length := Nat.lt_of_le_of_lt (Nat.sub_le i 1) hilt
      have hch : childAt n (i - 1) = some (n.children.get ⟨i - 1, him⟩) :=
        List.get?_eq_get him
      show (follow c.root (c.path.dropLast ++ [i - 1])).isSome
      rw [valid_snoc hn hch]
      rfl

theorem gotoDescendant_spec (c : TreeCursor) (h : ValidCursor c) (n : Nat) :
    (c.gotoDescendant n).root = c.root ∧ ValidCursor (c.gotoDescendant n) := by
  unfold TreeCursor.gotoDescendant
  split
  · exact ⟨rfl, h⟩
  · next p hg =>
    refine ⟨rfl, ?_⟩
    show (follow c.root p).isSome
    exact allPaths_valid c.root p (List.get?_mem hg)

theorem findChildIdx_bound {pred : SNode → Bool} : ∀ (ks : List SNode) (j i : Nat),
    findChildIdx pred j ks = some i → j ≤ i ∧ i - j < ks.length
  | [], j, i => by intro h; simp [findChildIdx] at h
  | k :: ks, j, i => by
    intro h
    rw [findChildIdx] at h
    by_cases hp : pred k
    · rw [if_pos hp] at h
      injection h with h
      subst h
      exact ⟨Nat.le_refl _, by simp⟩
    · rw [if_neg hp] at h
      have hb := findChildIdx_bound ks (j + 1) i h
      refine ⟨by omega, ?_⟩
      simp only [List.length_cons]
      omega

theorem findChildIdx_get {pred : SNode → Bool} {n : SNode} {i : Nat}
    (h : findChildIdx pred 0 n.children = some i) : ∃ k, childAt n i = some k := by
  have hb := findChildIdx_bound n.children 0 i h
  have hlt : i < n.children.length := by
    have h2 := hb.2
    omega
  exact ⟨_, List.get?_eq_get hlt⟩

theorem gotoFirstChildForIndex_spec (c : TreeCursor) (h : ValidCursor c) (g : Nat) :
    (c.gotoFirstChildForIndex g).1.root = c.root ∧
    ValidCursor (c.gotoFirstChildForIndex g).1 := by
  unfold TreeCursor.gotoFirstChildForIndex
  split
  · exact ⟨rfl, h⟩
  · next n heq =>
    split
    · exact ⟨rfl, h⟩
    · next i hf =>
      refine ⟨rfl, ?_⟩
      obtain ⟨k, hk⟩ := findChildIdx_get hf
      show (follow c.root (c.path ++ [i])).isSome
      rw [valid_snoc heq hk]
      rfl

theorem gotoFirstChildForPosition_spec (c : TreeCursor) (h : ValidCursor c)
    (g : Point) :
    (c.gotoFirstChildForPosition g).1.root = c.root ∧
    ValidCursor (c.gotoFirstChildForPosition g).1 := by
  unfold TreeCursor.gotoFirstChildForPosition
  split
  · exact ⟨rfl, h⟩
  · next n heq =>
    split
    · exact ⟨rfl, h⟩
    · next i hf =>
      refine ⟨rfl, ?_⟩
      obtain ⟨k, hk⟩ := findChildIdx_get hf
      show (follow c.root (c.path ++ [i])).isSome
      rw [valid_snoc heq hk]
      rfl

theorem applyOp_spec (c : TreeCursor) (op : CursorOp) (h : ValidCursor c) :
    (applyOp c op).root = c.root ∧ ValidCursor (applyOp c op) := by
  cases op with
  | firstChild => exact gotoFirstChild_spec c h
  | lastChild => exact gotoLastChild_spec c h
  | parent => exact gotoParent_spec c h
  | nextSibling => exact gotoNextSibling_spec c h
  | previousSibling => exact gotoPreviousSibling_spec c h
  | descendant n => exact gotoDescendant_spec c h n
  | firstChildForIndex g => exact gotoFirstChildForIndex_spec c h g
  | firstChildForPosition g => exact gotoFirstChildForPosition_spec c h g

theorem runOps_spec : ∀ (ops : List CursorOp) (c : TreeCursor), ValidCursor c →
    (runOps c ops).root = c.root ∧ ValidCursor (runOps c ops)
  | [], c, h => ⟨rfl, h⟩
  | op :: ops, c, h => by
    obtain ⟨h1, h2⟩ := applyOp_spec c op h
    obtain ⟨g1, g2⟩ := runOps_spec ops (applyOp c op) h2
    exact ⟨g1.trans h1, g2⟩

/-- Claim C7: for every tree cursor constructed at a node R and every
sequence of navigation operations, the current node of the cursor remains
within the subtree rooted at R: the cursor root is never changed, the
current node is always a node of that subtree, and gotoParent returns
false when the cursor is at R. -/
theorem cursor_never_escapes (R : SNode) (ops : List CursorOp) :
    (runOps R.walk ops).root = R ∧
    (∃ n ∈ R.subtrees, (runOps R.walk ops).currentNode = some n) ∧
    (R.walk.gotoParent).2 = false := by
  have h0 : ValidCursor R.walk := by
    show (follow R.walk.root R.walk.path).isSome
    simp [SNode.walk, follow]
  obtain ⟨hroot, hvalid⟩ := runOps_spec ops R.walk h0
  refine ⟨hroot, ?_, rfl⟩
  obtain ⟨n, hn⟩ := Option.isSome_iff_exists.mp hvalid
  refine ⟨n, ?_, ?_⟩
  · have hr : (runOps R.walk ops).root = R := hroot
    rw [hr] at hn
    exact follow_mem_subtrees _ R n hn
  · show follow (runOps R.walk ops).root (runOps R.walk ops).path = some n
    exact hn

/-! ### Lemmas about Tree.edit and the claim C5 -/

mutual
theorem subtrees_editNode : ∀ (e : Edit) (t : SNode),
    (t.editNode e).subtrees = t.subtrees.map (SNode.editNode e)
  | e, .mk i c nfo ks => by
    simp only [SNode.editNode, SNode.subtrees, List.map_cons]
    rw [subtreesL_editNodeL e ks]
theorem subtreesL_editNodeL : ∀ (e : Edit) (ts : List SNode),
    subtreesL (editNodeL e ts) = (subtreesL ts).map (SNode.editNode e)
  | e, [] => rfl
  | e, t :: ts => by
    simp only [editNodeL, subtreesL, List.map_append]
    rw [subtrees_editNode e t, subtreesL_editNodeL e ts]
end

theorem topCoords_editNode (e : Edit) : ∀ n : SNode,
    topCoords (n.editNode e) =
      (shiftIndex e n.startIndex, shiftIndex e n.endIndex,
       shiftPoint e n.startPosition, shiftPoint e n.endPosition)
  | .mk i c nfo ks => by
    simp [SNode.editNode, editInfo, topCoords, SNode.startIndex, SNode.endIndex,
      SNode.startPosition, SNode.endPosition, SNode.info]

/-- Claim C5: for every tree and every single edit, Tree.edit maps the
byte offsets and point coordinates of every node through the shift
functions of the edit; coordinates strictly before the start of the edit
are unchanged, and coordinates at or after the start are computed from the
delta between the old end and the new end of the edit, in both the byte
and the point coordinate systems. -/
theorem tree_edit_shifts (tr : Tree) (e : Edit) :
    ((tr.edit e).rootNode.subtrees.map topCoords =
      tr.rootNode.subtrees.map (fun n =>
        (shiftIndex e n.startIndex, shiftIndex e n.endIndex,
         shiftPoint e n.startPosition, shiftPoint e n.endPosition))) ∧
    (∀ b, b < e.startIndex → shiftIndex e b = b) ∧
    (∀ p, Point.lt p e.startPosition = true → shiftPoint e p = p) ∧
    (∀ b, e.startIndex ≤ b → shiftIndex e b = e.newEndIndex + (b - e.oldEndIndex)) ∧
    (∀ b, e.startIndex ≤ e.oldEndIndex → e.oldEndIndex ≤ b →
      shiftIndex e b + e.oldEndIndex = b + e.newEndIndex) := by
  refine ⟨?_, ?_, ?_, ?_, ?_⟩
  · show ((tr.rootNode.editNode e).subtrees.map topCoords = _)
    rw [subtrees_editNode, List.map_map]
    exact List.map_eq_map_iff.mpr (fun n _ => topCoords_editNode e n)
  · intro b hb
    simp [shiftIndex, hb]
  · intro p hp
    simp [shiftPoint, hp]
  · intro b hb
    rw [shiftIndex, if_neg (Nat.not_lt.mpr hb)]
  · intro b h1 h2
    rw [shiftIndex, if_neg (by omega)]
    omega

/-! ### Lemmas about child enumeration and the claim C8 -/

theorem currentNode_snoc {R : SNode} {p : List Nat} {N : SNode} (i : Nat)
    (h : follow R p = some N) :
    (TreeCursor.mk R (p ++ [i])).currentNode = childAt N i := by
  show follow R (p ++ [i]) = childAt N i
  rw [follow_append, h]
  cases hch : childAt N i <;> simp [follow, hch]

theorem gotoNextSibling_snoc {R : SNode} {p : List Nat} {N : SNode} (i : Nat)
    (h : follow R p = some N) :
    TreeCursor.gotoNextSibling ⟨R, p ++ [i]⟩ =
      if i + 1 < N.children.length then ((⟨R, p ++ [i + 1]⟩ : TreeCursor), true)
      else ((⟨R, p ++ [i]⟩ : TreeCursor), false) := by
  unfold TreeCursor.gotoNextSibling
  simp only [List.getLast?_concat, List.dropLast_concat, h]

theorem gotoFirstChild_at {R : SNode} {p : List Nat} {N : SNode}
    (h : follow R p = some N) :
    TreeCursor.gotoFirstChild ⟨R, p⟩ =
      if N.children.isEmpty then ((⟨R, p⟩ : TreeCursor), false)
      else ((⟨R, p ++ [0]⟩ : TreeCursor), true) := by
  unfold TreeCursor.gotoFirstChild
  have hcur : follow (TreeCursor.mk R p).root (TreeCursor.mk R p).path = some N := h
  simp only [hcur]

theorem visitFrom_drop : ∀ (f : Nat) (R : SNode) (p : List Nat) (N : SNode) (i : Nat),
    follow R p = some N → i < N.children.length → f = N.children.length - 1 - i →
    visitFrom ⟨R, p ++ [i]⟩ f = N.children.drop i
  | 0, R, p, N, i => by
    intro h hi hf
    unfold visitFrom
    rw [currentNode_snoc i h]
    have hch : childAt N i = some (N.children.get ⟨i, hi⟩) := List.get?_eq_get hi
    rw [hch]
    rw [List.drop_eq_get_cons hi, List.drop_eq_nil_of_le (by omega)]
    rfl
  | f + 1, R, p, N, i => by
    intro h hi hf
    have hi1 : i + 1 < N.children.length := by omega
    unfold visitFrom
    rw [currentNode_snoc i h]
    have hch : childAt N i = some (N.children.get ⟨i, hi⟩) := List.get?_eq_get hi
    rw [hch, gotoNextSibling_snoc i h, if_pos hi1]
    have hrec := visitFrom_drop f R p N (i + 1) h hi1 (by omega)
    simp only [hrec]
    rw [List.drop_eq_get_cons hi]
    rfl

/-- Claim C8: for every node, walking a cursor from that node with
gotoFirstChild followed by repeated gotoNextSibling until it fails visits
exactly the nodes of the direct children accessor of the node, in the same
order; and gotoParent from any child position returns the cursor to the
original node. -/
theorem cursor_children_roundtrip (R : SNode) (p : List Nat) (N : SNode)
    (h : follow R p = some N) :
    visitChildren ⟨R, p⟩ = N.children ∧
    (∀ i : Nat, TreeCursor.gotoParent ⟨R, p ++ [i]⟩ = ((⟨R, p⟩ : TreeCursor), true)) := by
  constructor
  · unfold visitChildren
    have hcur : (TreeCursor.mk R p).currentNode = some N := h
    rw [hcur, gotoFirstChild_at h]
    by_cases hemp : N.children.isEmpty = true
    · rw [if_pos hemp, List.isEmpty_iff.mp hemp]
    · rw [if_neg hemp]
      have hne : N.children ≠ [] := fun h2 => hemp (by simp [h2])
      have hpos : 0 < N.children.length := List.length_pos.mpr hne
      have hv := visitFrom_drop (N.children.length - 1) R p N 0 h hpos (by omega)
      show visitFrom ⟨R, p ++ [0]⟩ (N.children.length - 1) = N.children
      rw [hv, List.drop_zero]
  · intro i
    unfold TreeCursor.gotoParent
    rw [if_neg (by simp)]
    simp [List.dropLast_concat]

/-! ### Lemmas about changed-range computation and the claim C4 -/

theorem mem_insertRange {x r : Range} : ∀ l : List Range,
    x ∈ insertRange r l ↔ x = r ∨ x ∈ l
  | [] => by simp [insertRange]
  | s :: rest => by
    rw [insertRange]
    by_cases h : r.startIndex ≤ s.startIndex
    · rw [if_pos h]
      simp
    · rw [if_neg h]
      simp only [List.mem_cons, mem_insertRange rest]
      tauto

theorem sorted_insertRange {r : Range} : ∀ {l : List Range},
    l.Pairwise (fun a b => a.startIndex ≤ b.startIndex) →
    (insertRange r l).Pairwise (fun a b => a.startIndex ≤ b.startIndex)
  | [] => by intro h; simp [insertRange]
  | s :: rest => by
    intro h
    rw [insertRange]
    by_cases hle : r.startIndex ≤ s.startIndex
    · rw [if_pos hle]
      refine List.Pairwise.cons ?_ h
      intro b hb
      rcases List.mem_cons.mp hb with rfl | hb
      · exact hle
      · exact Nat.le_trans hle (List.rel_of_pairwise_cons h hb)
    · rw [if_neg hle]
      have hs := List.pairwise_cons.mp h
      refine List.Pairwise.cons ?_ (sorted_insertRange hs.2)
      intro b hb
      rcases (mem_insertRange _).mp hb with rfl | hb
      · exact Nat.le_of_lt (Nat.lt_of_not_le hle)
      · exact hs.1 b hb

theorem mem_sortRanges {x : Range} : ∀ l : List Range, x ∈ sortRanges l ↔ x ∈ l
  | [] => Iff.rfl
  | r :: rest => by
    rw [sortRanges]
    simp only [mem_insertRange, mem_sortRanges rest, List.mem_cons]

theorem sorted_sortRanges : ∀ l : List Range,
    (sortRanges l).Pairwise (fun a b => a.startIndex ≤ b.startIndex)
  | [] => List.Pairwise.nil
  | r :: rest => sorted_insertRange (sorted_sortRanges rest)

/-- What range merging guarantees on a list sorted by start byte: the
output ranges are pairwise strictly disjoint, every output range starts at
the start of some input range, and every input range is contained in some
output range. -/
theorem mergeRanges_spec : ∀ l : List Range,
    l.Pairwise (fun a b => a.startIndex ≤ b.startIndex) →
    ((mergeRanges l).Pairwise (fun a b => a.endIndex < b.startIndex) ∧
     (∀ x ∈ mergeRanges l, ∃ y ∈ l, y.startIndex ≤ x.startIndex) ∧
     (∀ r ∈ l, ∃ x ∈ mergeRanges l,
       x.startIndex ≤ r.startIndex ∧ r.endIndex ≤ x.endIndex)) := by
  intro l
  induction l using mergeRanges.induct with
  | case1 =>
    intro _
    rw [mergeRanges]
    exact ⟨List.Pairwise.nil, by simp, by simp⟩
  | case2 r =>
    intro _
    rw [mergeRanges]
    refine ⟨by simp, ?_, ?_⟩
    · intro x hx
      rcases List.mem_singleton.mp hx with rfl
      exact ⟨x, by simp, Nat.le_refl _⟩
    · intro r0 hr0
      rcases List.mem_singleton.mp hr0 with rfl
      exact ⟨r0, by simp, Nat.le_refl _, Nat.le_refl _⟩
  | case3 r s rest hle ih =>
    intro hsort
    have hrs : r.startIndex ≤ s.startIndex :=
      List.rel_of_pairwise_cons hsort (by simp)
    have hsort2 : (joinRange r s :: rest).Pairwise
        (fun a b => a.startIndex ≤ b.startIndex) := by
      refine List.Pairwise.cons ?_
        ((List.pairwise_cons.mp (List.pairwise_cons.mp hsort).2).2)
      intro b hb
      have hrb : r.startIndex ≤ b.startIndex :=
        List.rel_of_pairwise_cons hsort (by simp [hb])
      simpa [joinRange] using hrb
    obtain ⟨ih1, ih2, ih3⟩ := ih hsort2
    have hout : mergeRanges (r :: s :: rest) = mergeRanges (joinRange r s :: rest) := by
      rw [mergeRanges, if_pos hle]
    rw [hout]
    refine ⟨ih1, ?_, ?_⟩
    · intro x hx
      obtain ⟨y, hy, hyx⟩ := ih2 x hx
      rcases List.mem_cons.mp hy with rfl | hy
      · exact ⟨r, by simp, by simpa [joinRange] using hyx⟩
      · exact ⟨y, by simp [hy], hyx⟩
    · intro r0 hr0
      rcases List.mem_cons.mp hr0 with heq | hr0
      · rw [heq]
        obtain ⟨x, hx, hx1, hx2⟩ := ih3 (joinRange r s) (by simp)
        refine ⟨x, hx, by simpa [joinRange] using hx1, ?_⟩
        have he : r.endIndex ≤ (joinRange r s).endIndex := by
          simp only [joinRange]
          exact Nat.le_max_left _ _
        exact Nat.le_trans he hx2
      rcases List.mem_cons.mp hr0 with heq | hr0
      · rw [heq]
        obtain ⟨x, hx, hx1, hx2⟩ := ih3 (joinRange r s) (by simp)
        refine ⟨x, hx, ?_, ?_⟩
        · have hxr : x.startIndex ≤ r.startIndex := by simpa [joinRange] using hx1
          exact Nat.le_trans hxr hrs
        · have he : s.endIndex ≤ (joinRange r s).endIndex := by
            simp only [joinRange]
            exact Nat.le_max_right _ _
          exact Nat.le_trans he hx2
      · obtain ⟨x, hx, hx1, hx2⟩ := ih3 r0 (by simp [hr0])
        exact ⟨x, hx, hx1, hx2⟩
  | case4 r s rest hgt ih =>
    intro hsort
    have hsort2 : (s :: rest).Pairwise (fun a b => a.startIndex ≤ b.startIndex) :=
      (List.pairwise_cons.mp hsort).2
    obtain ⟨ih1, ih2, ih3⟩ := ih hsort2
    have hout : mergeRanges (r :: s :: rest) = r :: mergeRanges (s :: rest) := by
      rw [mergeRanges, if_neg hgt]
    rw [hout]
    refine ⟨?_, ?_, ?_⟩
    · refine List.Pairwise.cons ?_ ih1
      intro x hx
      obtain ⟨y, hy, hyx⟩ := ih2 x hx
      have hsy : s.startIndex ≤ y.startIndex := by
        rcases List.mem_cons.mp hy with rfl | hy
        · exact Nat.le_refl _
        · exact List.rel_of_pairwise_cons hsort2 hy
      have hrse : r.endIndex < s.startIndex := Nat.lt_of_not_le hgt
      omega
    · intro x hx
      rcases List.mem_cons.mp hx with rfl | hx
      · exact ⟨x, by simp, Nat.le_refl _⟩
      · obtain ⟨y, hy, hyx⟩ := ih2 x hx
        exact ⟨y, by simp [List.mem_cons.mp hy], hyx⟩
    · intro r0 hr0
      rcases List.mem_cons.mp hr0 with heq | hr0
      · rw [heq]
        exact ⟨r, by simp, Nat.le_refl _, Nat.le_refl _⟩
      · obtain ⟨x, hx, hx1, hx2⟩ := ih3 r0 hr0
        exact ⟨x, by simp [hx], hx1, hx2⟩

theorem mergeRanges_wf : ∀ l : List Range,
    (∀ r ∈ l, r.startIndex ≤ r.endIndex) →
    ∀ x ∈ mergeRanges l, x.startIndex ≤ x.endIndex := by
  intro l
  induction l using mergeRanges.induct with
  | case1 =>
    intro _ x hx
    rw [mergeRanges] at hx
    cases hx
  | case2 r =>
    intro h x hx
    rw [mergeRanges] at hx
    rcases List.mem_singleton.mp hx with rfl
    exact h x (by simp)
  | case3 r s rest hle ih =>
    intro h x hx
    rw [mergeRanges, if_pos hle] at hx
    refine ih ?_ x hx
    intro y hy
    rcases List.mem_cons.mp hy with heq | hy
    · rw [heq]
      show (joinRange r s).startIndex ≤ (joinRange r s).endIndex
      simp only [joinRange]
      exact Nat.le_trans (h r (by simp)) (Nat.le_max_left _ _)
    · exact h y (by simp [hy])
  | case4 r s rest hgt ih =>
    intro h x hx
    rw [mergeRanges, if_neg hgt] at hx
    rcases List.mem_cons.mp hx with rfl | hx
    · exact h x (by simp)
    · exact ih (fun y hy => h y (by simp [List.mem_cons.mp hy])) x hx

theorem point_le_total (p q : Point) : Point.le p q = true ∨ Point.le q p = true := by
  cases p; cases q
  simp only [Point.le, Bool.or_eq_true, Bool.and_eq_true, decide_eq_true_eq]
  omega

theorem point_min_comm (p q : Point) : Point.min p q = Point.min q p := by
  unfold Point.min
  by_cases h1 : Point.le p q = true
  · rw [if_pos h1]
    by_cases h2 : Point.le q p = true
    · rw [if_pos h2]
      cases p; cases q
      simp only [Point.le, Bool.or_eq_true, Bool.and_eq_true, decide_eq_true_eq] at h1 h2
      simp only [Point.mk.injEq]
      omega
    · rw [if_neg h2]
  · rw [if_neg h1]
    by_cases h2 : Point.le q p = true
    · rw [if_pos h2]
    · exfalso
      rcases point_le_total p q with h | h
      · exact h1 h
      · exact h2 h

theorem point_max_comm (p q : Point) : Point.max p q = Point.max q p := by
  unfold Point.max
  by_cases h1 : Point.le p q = true
  · rw [if_pos h1]
    by_cases h2 : Point.le q p = true
    · rw [if_pos h2]
      cases p; cases q
      simp only [Point.le, Bool.or_eq_true, Bool.and_eq_true, decide_eq_true_eq] at h1 h2
      simp only [Point.mk.injEq]
      omega
    · rw [if_neg h2]
  · rw [if_neg h1]
    by_cases h2 : Point.le q p = true
    · rw [if_pos h2]
    · exfalso
      rcases point_le_total p q with h | h
      · exact h1 h
      · exact h2 h

theorem hullRange_comm (a b : SNode) : hullRange a b = hullRange b a := by
  unfold hullRange
  rw [point_min_comm, point_max_comm, Nat.min_comm, Nat.max_comm]

mutual
theorem diffT_comm : ∀ a b : SNode, diffT a b = diffT b a
  | .mk i c nfo ks, .mk j d mfo ls => by
    rw [diffT, diffT]
    simp only [SNode.info, SNode.children]
    by_cases h1 : (SNode.mk i c nfo ks).shape = (SNode.mk j d mfo ls).shape
    · simp only [if_pos h1, if_pos h1.symm]
    · by_cases h2 : nfo = mfo ∧ ks.length = ls.length
      · simp only [if_neg h1, if_neg (show ¬(SNode.mk j d mfo ls).shape = (SNode.mk i c nfo ks).shape from fun h => h1 h.symm), if_pos h2,
          if_pos (show mfo = nfo ∧ ls.length = ks.length from ⟨h2.1.symm, h2.2.symm⟩)]
        exact diffL_comm ks ls
      · simp only [if_neg h1, if_neg (show ¬(SNode.mk j d mfo ls).shape = (SNode.mk i c nfo ks).shape from fun h => h1 h.symm), if_neg h2,
          if_neg (show ¬(mfo = nfo ∧ ls.length = ks.length) from
            fun h => h2 ⟨h.1.symm, h.2.symm⟩)]
        rw [hullRange_comm]
theorem diffL_comm : ∀ as bs : List SNode, diffL as bs = diffL bs as
  | [], [] => rfl
  | [], _ :: _ => rfl
  | _ :: _, [] => rfl
  | a :: as, b :: bs => by
    rw [diffL, diffL, diffT_comm a b, diffL_comm as bs]
end

theorem shape_counterpart {a b : SNode} (h : a.shape = b.shape) :
    ∀ n ∈ b.subtrees, ∃ m ∈ a.subtrees, m.topInfo = n.topInfo := by
  intro n hn
  have hmap := subtrees_shape_eq a b h
  have hmem : n.shape ∈ a.subtrees.map SNode.shape := by
    rw [hmap]
    exact List.mem_map_of_mem _ hn
  obtain ⟨m, hm, hms⟩ := List.mem_map.mp hmem
  exact ⟨m, hm, topInfo_of_shape hms⟩

mutual
theorem diffT_wf : ∀ a b : SNode, a.wf = true →
    ∀ r ∈ diffT a b, r.startIndex ≤ r.endIndex
  | .mk i c nfo ks, b => by
    intro hwf r hr
    rw [diffT] at hr
    by_cases h1 : (SNode.mk i c nfo ks).shape = b.shape
    · rw [if_pos h1] at hr
      cases hr
    · rw [if_neg h1] at hr
      by_cases h2 : nfo = b.info ∧ ks.length = b.children.length
      · rw [if_pos h2] at hr
        exact diffL_wf ks b.children (wf_children hwf) r hr
      · rw [if_neg h2] at hr
        rcases List.mem_singleton.mp hr with rfl
        rw [wf_unfold] at hwf
        simp only [Bool.and_eq_true, decide_eq_true_eq] at hwf
        show min (SNode.mk i c nfo ks).startIndex b.startIndex ≤
          max (SNode.mk i c nfo ks).endIndex b.endIndex
        exact Nat.le_trans (Nat.min_le_left _ _)
          (Nat.le_trans hwf.1 (Nat.le_max_left _ _))
theorem diffL_wf : ∀ as bs : List SNode, (∀ k ∈ as, k.wf = true) →
    ∀ r ∈ diffL as bs, r.startIndex ≤ r.endIndex
  | [], bs => by intro _ r hr; simp [diffL] at hr
  | _ :: _, [] => by intro _ r hr; simp [diffL] at hr
  | a :: as, b :: bs => by
    intro h r hr
    rw [diffL] at hr
    rcases List.mem_append.mp hr with h1 | h1
    · exact diffT_wf a b (h a (by simp)) r h1
    · exact diffL_wf as bs (fun k hk => h k (by simp [hk])) r h1
end

mutual
/-- Coverage of the structural diff: every node of the second tree either
has a counterpart in the first tree with the same node-level data (type
id, flags, byte/point range, child count), or lies entirely within one of
the emitted ranges. -/
theorem diffT_cover : ∀ a b : SNode, a.wf = true → b.wf = true →
    ∀ n ∈ b.subtrees, (∃ m ∈ a.subtrees, m.topInfo = n.topInfo) ∨
      ∃ r ∈ diffT a b, r.startIndex ≤ n.startIndex ∧ n.endIndex ≤ r.endIndex
  | .mk i c nfo ks, b => by
    intro hwa hwb n hn
    rw [diffT]
    by_cases h1 : (SNode.mk i c nfo ks).shape = b.shape
    · exact Or.inl (shape_counterpart h1 n hn)
    · rw [if_neg h1]
      by_cases h2 : nfo = b.info ∧ ks.length = b.children.length
      · rw [if_pos h2]
        rw [subtrees_unfold] at hn
        rcases List.mem_cons.mp hn with rfl | hn
        · refine Or.inl ⟨SNode.mk i c nfo ks, self_mem_subtrees _, ?_⟩
          simp [SNode.topInfo, SNode.info, SNode.children, h2.1, h2.2]
        · have hres := diffL_cover ks b.children (wf_children hwa)
            (wf_children hwb) h2.2 n hn
          rcases hres with ⟨m, hm, hmt⟩ | ⟨r, hr, hrn⟩
          · refine Or.inl ⟨m, ?_, hmt⟩
            rw [subtrees_unfold]
            exact List.mem_cons_of_mem _ hm
          · exact Or.inr ⟨r, hr, hrn⟩
      · rw [if_neg h2]
        right
        refine ⟨hullRange (SNode.mk i c nfo ks) b, by simp, ?_, ?_⟩
        · have hb := (subtree_range_le b hwb n hn).1
          exact Nat.le_trans (Nat.min_le_right _ _) hb
        · have hb := (subtree_range_le b hwb n hn).2
          exact Nat.le_trans hb (Nat.le_max_right _ _)
theorem diffL_cover : ∀ as bs : List SNode,
    (∀ k ∈ as, k.wf = true) → (∀ k ∈ bs, k.wf = true) → as.length = bs.length →
    ∀ n ∈ subtreesL bs, (∃ m ∈ subtreesL as, m.topInfo = n.topInfo) ∨
      ∃ r ∈ diffL as bs, r.startIndex ≤ n.startIndex ∧ n.endIndex ≤ r.endIndex
  | [], [] => by intro _ _ _ n hn; simp [subtreesL] at hn
  | [], _ :: _ => by intro _ _ h; cases h
  | _ :: _, [] => by intro _ _ h; cases h
  | a :: as, b :: bs => by
    intro hwa hwb hlen n hn
    simp only [subtreesL, List.mem_append] at hn
    rcases hn with hn | hn
    · have hres := diffT_cover a b (hwa a (by simp)) (hwb b (by simp)) n hn
      rcases hres with ⟨m, hm, hmt⟩ | ⟨r, hr, hrn⟩
      · refine Or.inl ⟨m, ?_, hmt⟩
        simp only [subtreesL, List.mem_append]
        exact Or.inl hm
      · refine Or.inr ⟨r, ?_, hrn⟩
        rw [diffL]
        exact List.mem_append_left _ hr
    · have hres := diffL_cover as bs (fun k hk => hwa k (by simp [hk]))
        (fun k hk => hwb k (by simp [hk])) (by simpa using hlen) n hn
      rcases hres with ⟨m, hm, hmt⟩ | ⟨r, hr, hrn⟩
      · refine Or.inl ⟨m, ?_, hmt⟩
        simp only [subtreesL, List.mem_append]
        exact Or.inr hm
      · refine Or.inr ⟨r, ?_, hrn⟩
        rw [diffL]
        exact List.mem_append_right _ hr
end

/-- Claim C4: for every edited old tree and new tree parsed from the
post-edit text, getChangedRanges returns a list of ranges such that every
node whose content differs between the two trees (a node of either tree
without a counterpart carrying the same node-level data at the same
position in the other tree) lies within some returned range, and the
returned ranges are pairwise non-overlapping and sorted by start
position. -/
theorem changed_ranges_cover (old new : Tree)
    (hwo : old.rootNode.wf = true) (hwn : new.rootNode.wf = true) :
    (∀ n ∈ new.rootNode.subtrees,
        (∃ m ∈ old.rootNode.subtrees, m.topInfo = n.topInfo) ∨
        ∃ r ∈ old.getChangedRanges new,
          r.startIndex ≤ n.startIndex ∧ n.endIndex ≤ r.endIndex) ∧
    (∀ n ∈ old.rootNode.subtrees,
        (∃ m ∈ new.rootNode.subtrees, m.topInfo = n.topInfo) ∨
        ∃ r ∈ old.getChangedRanges new,
          r.startIndex ≤ n.startIndex ∧ n.endIndex ≤ r.endIndex) ∧
    (old.getChangedRanges new).Pairwise (fun a b => a.endIndex < b.startIndex) ∧
    (old.getChangedRanges new).Pairwise (fun a b => a.startIndex ≤ b.startIndex) := by
  have hsorted := sorted_sortRanges (diffT old.rootNode new.rootNode)
  obtain ⟨hdisj, hlow, hcov⟩ := mergeRanges_spec _ hsorted
  have hwfout : ∀ x ∈ old.getChangedRanges new, x.startIndex ≤ x.endIndex := by
    refine mergeRanges_wf _ ?_
    intro r hr
    exact diffT_wf old.rootNode new.rootNode hwo r ((mem_sortRanges _).mp hr)
  have hcover : ∀ r ∈ diffT old.rootNode new.rootNode,
      ∃ x ∈ old.getChangedRanges new,
        x.startIndex ≤ r.startIndex ∧ r.endIndex ≤ x.endIndex :=
    fun r hr => hcov r ((mem_sortRanges _).mpr hr)
  refine ⟨?_, ?_, hdisj, ?_⟩
  · intro n hn
    rcases diffT_cover old.rootNode new.rootNode hwo hwn n hn with h | ⟨r, hr, h1, h2⟩
    · exact Or.inl h
    · obtain ⟨x, hx, hx1, hx2⟩ := hcover r hr
      exact Or.inr ⟨x, hx, Nat.le_trans hx1 h1, Nat.le_trans h2 hx2⟩
  · intro n hn
    rcases diffT_cover new.rootNode old.rootNode hwn hwo n hn with h | ⟨r, hr, h1, h2⟩
    · exact Or.inl h
    · rw [diffT_comm new.rootNode old.rootNode] at hr
      obtain ⟨x, hx, hx1, hx2⟩ := hcover r hr
      exact Or.inr ⟨x, hx, Nat.le_trans hx1 h1, Nat.le_trans h2 hx2⟩
  · refine List.Pairwise.imp_of_mem ?_ hdisj
    intro a b ha _ hab
    exact Nat.le_trans (hwfout a ha) (Nat.le_of_lt hab)

/-! ### Witnesses: the claim theorems applied at concrete inputs -/

/-- Witness for claim C1 at a concrete parser, texts, edit, and trees. -/
theorem incremental_parse_equiv_witness :
    exIncr.rootNode.shape = exFresh.rootNode.shape ∧
    exIncr.rootNode.subtrees.map SNode.shape =
      exFresh.rootNode.subtrees.map SNode.shape :=
  incremental_parse_equiv exParser exText1 exText2 exEdit {} {} {}
    exPrev exIncr exFresh rfl rfl rfl

/-- Witness for claim C2 at a concrete parser and text. -/
theorem parse_idempotent_witness :
    exFresh.rootNode.subtrees.map SNode.shape =
      exFresh.rootNode.subtrees.map SNode.shape ∧
    exFresh.rootNode.shape = exFresh.rootNode.shape ∧
    exFresh.rootNode.hasError = exFresh.rootNode.hasError :=
  parse_idempotent exParser exText2 {} exFresh exFresh rfl rfl

/-- Witness for claim C3 at a concrete parser and text. -/
theorem parse_rootNode_endIndex_witness :
    exPrev.rootNode.endIndex = exText1.length :=
  parse_rootNode_endIndex exParser exText1 none {} exPrev rfl

/-- Witness for claim C4 at two concrete well-formed trees, instantiated
at the root node of the new tree. -/
theorem changed_ranges_cover_witness :
    ((∃ m ∈ (⟨exRoot⟩ : Tree).rootNode.subtrees, m.topInfo = exRoot2.topInfo) ∨
      ∃ r ∈ Tree.getChangedRanges ⟨exRoot⟩ ⟨exRoot2⟩,
        r.startIndex ≤ exRoot2.startIndex ∧ exRoot2.endIndex ≤ r.endIndex) ∧
    (Tree.getChangedRanges ⟨exRoot⟩ ⟨exRoot2⟩).Pairwise
      (fun a b => a.endIndex < b.startIndex) ∧
    (Tree.getChangedRanges ⟨exRoot⟩ ⟨exRoot2⟩).Pairwise
      (fun a b => a.startIndex ≤ b.startIndex) :=
  ⟨(changed_ranges_cover ⟨exRoot⟩ ⟨exRoot2⟩ (by decide) (by decide)).1
      exRoot2 (self_mem_subtrees exRoot2),
   (changed_ranges_cover ⟨exRoot⟩ ⟨exRoot2⟩ (by decide) (by decide)).2.2.1,
   (changed_ranges_cover ⟨exRoot⟩ ⟨exRoot2⟩ (by decide) (by decide)).2.2.2⟩

/-- Witness for claim C5 at a concrete tree, edit, and coordinates. -/
theorem tree_edit_shifts_witness :
    shiftIndex exEdit 0 = 0 ∧
    shiftPoint exEdit ⟨0, 0⟩ = ⟨0, 0⟩ ∧
    shiftIndex exEdit 1 = exEdit.newEndIndex + (1 - exEdit.oldEndIndex) ∧
    shiftIndex exEdit 2 + exEdit.oldEndIndex = 2 + exEdit.newEndIndex :=
  ⟨(tree_edit_shifts ⟨exRoot⟩ exEdit).2.1 0 (by decide),
   (tree_edit_shifts ⟨exRoot⟩ exEdit).2.2.1 ⟨0, 0⟩ (by decide),
   (tree_edit_shifts ⟨exRoot⟩ exEdit).2.2.2.1 1 (by decide),
   (tree_edit_shifts ⟨exRoot⟩ exEdit).2.2.2.2 2 (by decide) (by decide)⟩

/-- Witness for claim C6 at a concrete incremental parse, instantiated at
the root node of the new tree. -/
theorem node_id_stable_iff_reused_witness :
    ((∃ o ∈ exPrevEdited.rootNode.subtrees, o.id = exIncr.rootNode.id) ↔
      (exIncr.rootNode ∈ exPrevEdited.rootNode.subtrees ∧
        exIncr.rootNode.noChanges = true)) :=
  node_id_stable_iff_reused exParser exText2 exPrevEdited {} exIncr rfl
    exIncr.rootNode (self_mem_subtrees exIncr.rootNode)

/-- Witness for claim C8 at a concrete tree, rooted at the tree itself. -/
theorem cursor_children_roundtrip_witness :
    visitChildren ⟨exRoot, []⟩ = exRoot.children ∧
    TreeCursor.gotoParent ⟨exRoot, [] ++ [1]⟩ =
      ((⟨exRoot, []⟩ : TreeCursor), true) :=
  ⟨(cursor_children_roundtrip exRoot [] exRoot rfl).1,
   (cursor_children_roundtrip exRoot [] exRoot rfl).2 1⟩

/-- Witness for claim C10 at a concrete fresh parse. -/
theorem parse_ids_nodup_witness :
    exPrev.rootNode.idList.Nodup :=
  parse_ids_nodup exParser exText1 none {} exPrev rfl
    (fun o ho => Option.noConfusion ho)

end TS
